import Mathlib

/-!
Shallow embedding of the pesadb storage engine (src/src/c/wal_db_upgraded.c)
and the hash-join operator (src/src/c/hashjoin.c).

The WAL file is modelled as a flat list of bytes (each a `Nat` below 256 when
produced by the serializers), because the engine's reverse snapshot scan reads
the log at byte offsets computed by repeated subtraction of
`sizeof(WalPageRecord)`, which can land in the middle of a record; only a
byte-level model is faithful to that behaviour.  All scanners are written with
an explicit fuel argument so that every definition is structurally recursive
and kernel-computable; the fuel passed by the wrappers (`length + 1`,
`snapshot + 1`) always exceeds the number of loop iterations, since each
iteration consumes at least 12 bytes of the log (respectively decreases the
scan position by 4108).

Modelling conventions, each noted where it applies:
* the data file is a total function from page id to page image; the C code
  reads holes and positions beyond end-of-file as zero-filled pages, which
  corresponds to starting from the constant-zero function;
* the C code does not check the result of the inner `read` calls, so a record
  torn at the end of the log is read into partially uninitialized stack
  memory; the model pads missing bytes with zero (`List.getD _ _ 0`) and stops
  a forward scan when fewer than 4 bytes remain.  No claim below depends on
  this corner: every theorem about the scanners quantifies over logs built
  from whole records.
-/

namespace WalDb

/-- PAGE_SIZE from wal_db_upgraded.c. -/
def PAGE_SIZE : Nat := 4096

/-- MAX_TX from wal_db_upgraded.c. -/
def MAX_TX : Nat := 1024

/-- MAX_READERS from wal_db_upgraded.c. -/
def MAX_READERS : Nat := 32

/-- CACHE_SIZE from wal_db_upgraded.c. -/
def CACHE_SIZE : Nat := 64

/-- WAL_MAGIC_COMMIT from wal_db_upgraded.c. -/
def WAL_MAGIC_COMMIT : Nat := 0xC0DECAFE

/-- Modulus of the C type uint32_t (2 ^ 32). -/
def U32 : Nat := 4294967296

/-- ULLONG_MAX, the start value of the fold in oldest_reader_snapshot. -/
def ULLONG_MAX : Nat := 18446744073709551615

/-- Bytes are naturals (below 256 whenever produced by the serializers). -/
abbrev Byte := Nat

/-- A page image: a list of 4096 bytes wherever the code guarantees it. -/
abbrev Page := List Byte

/-- The zero-filled page the pager returns for holes and reads past EOF. -/
def zeroPage : Page := List.replicate PAGE_SIZE 0

/-- Little-endian serialization of a uint32_t field (value taken mod 2^32). -/
def toLE4 (n : Nat) : List Byte :=
  [n % 256, n / 256 % 256, n / 65536 % 256, n / 16777216 % 256]

/-- Little-endian read of a uint32_t at byte offset `pos`; bytes past the end
of the list read as 0 (see the torn-record note in the file header). -/
def readLE32 (bs : List Byte) (pos : Nat) : Nat :=
  bs.getD pos 0 + 256 * bs.getD (pos + 1) 0 + 65536 * bs.getD (pos + 2) 0 +
    16777216 * bs.getD (pos + 3) 0

/-- sizeof(WalPageRecord): three uint32_t fields plus the 4096-byte payload. -/
def PAGE_REC_SIZE : Nat := 12 + PAGE_SIZE

/-- sizeof(WalCommitRecord): three uint32_t fields. -/
def COMMIT_REC_SIZE : Nat := 12

/-- Abstract WAL records (WalPageRecord with type=1, WalCommitRecord with
type=2); the magic field of a commit record is kept arbitrary so that
bad-magic records can be expressed. -/
inductive WalRecord where
  | page (tx pid : Nat) (data : Page)
  | commit (tx magic : Nat)

/-- Serialization of a record exactly as wal_append_page / wal_commit lay it
out: type, tx_id, page_id/magic as little-endian uint32_t, then the payload
for page records. -/
def recBytes : WalRecord → List Byte
  | .page tx pid data => toLE4 1 ++ toLE4 tx ++ toLE4 pid ++ data
  | .commit tx magic => toLE4 2 ++ toLE4 tx ++ toLE4 magic

/-- Serialization of a whole log: records appended with no padding. -/
def walBytes (rs : List WalRecord) : List Byte :=
  rs.foldr (fun r acc => recBytes r ++ acc) []

/-- Well-formedness of a record: the uint32_t fields fit in 32 bits and a
page payload has exactly PAGE_SIZE bytes, as the C structs guarantee. -/
def WalRecord.wf : WalRecord → Bool
  | .page tx pid data =>
      decide (tx < U32) && decide (pid < U32) && decide (data.length = PAGE_SIZE)
  | .commit tx magic => decide (tx < U32) && decide (magic < U32)

/-- Tests whether a record is a page record of transaction T. -/
def isPageOfB (T : Nat) : WalRecord → Bool
  | .page tx _ _ => tx == T
  | .commit _ _ => false

/-- Tests whether a record is a commit record of transaction T (any magic). -/
def isCommitOfB (T : Nat) : WalRecord → Bool
  | .commit tx _ => tx == T
  | .page _ _ _ => false

/-- Tests whether a record is a commit record of transaction T carrying the
correct magic 0xC0DECAFE. -/
def isGoodCommitOfB (T : Nat) : WalRecord → Bool
  | .commit tx magic => tx == T && magic == WAL_MAGIC_COMMIT
  | .page _ _ _ => false

/-- Tests whether a record is a page record. -/
def isPageB : WalRecord → Bool
  | .page _ _ _ => true
  | .commit _ _ => false

/-- Whether some record of the log is a correct-magic commit of T. -/
def hasGoodCommit (recs : List WalRecord) (T : Nat) : Bool :=
  recs.any (isGoodCommitOfB T)

/-- The data file as a map from page id to page image.  Holes and positions
beyond end-of-file read as zero in the C code (read_page_from_db zero-fills on
short read), so a fresh file is the constant `zeroPage` function. -/
def DataFile := Nat → Page

/-- write_page_to_db from wal_db_upgraded.c: overwrite one page slot. -/
def write_page_to_db (db : DataFile) (pid : Nat) (data : Page) : DataFile :=
  fun q => if q = pid then data else db q

/-- read_page_from_db from wal_db_upgraded.c (zero-fill collapsed into the
map representation, see DataFile). -/
def read_page_from_db (db : DataFile) (pid : Nat) : Page := db pid

/-- Replay of a list of (page id, payload) writes through the pager. -/
def applyWrites (ws : List (Nat × Page)) (db : DataFile) : DataFile :=
  ws.foldl (fun d w => write_page_to_db d w.1 w.2) db

/-- The last write to a page in a write list, if any. -/
def lastWrite : List (Nat × Page) → Nat → Option Page
  | [], _ => none
  | w :: ws, q =>
    match lastWrite ws q with
    | some d => some d
    | none => if w.1 = q then some w.2 else none

/-- Loop body of wal_recover: scan forward, record correct-magic commits with
tx_id < MAX_TX, and write through any page record whose tx_id is in the
committed set at the moment that page record is scanned.  The type field
discriminates exactly as the C does: 2 is a commit, anything else is read as
a page record. -/
def recoverAux : Nat → List Byte → List Nat → DataFile → DataFile
  | 0, _, _, db => db
  | fuel + 1, bs, committed, db =>
    if bs.length < 4 then db
    else
      let t := readLE32 bs 0
      if t = 2 then
        let tx := readLE32 bs 4
        let magic := readLE32 bs 8
        recoverAux fuel (bs.drop COMMIT_REC_SIZE)
          (if magic = WAL_MAGIC_COMMIT ∧ tx < MAX_TX then tx :: committed else committed)
          db
      else
        let tx := readLE32 bs 4
        let pid := readLE32 bs 8
        let data := (bs.drop 12).take PAGE_SIZE
        recoverAux fuel (bs.drop PAGE_REC_SIZE) committed
          (if tx < MAX_TX ∧ tx ∈ committed then write_page_to_db db pid data else db)

/-- wal_recover from wal_db_upgraded.c: full forward scan from offset 0. -/
def wal_recover (bs : List Byte) (db : DataFile) : DataFile :=
  recoverAux (bs.length + 1) bs [] db

/-- Write-collecting mirror of recoverAux, used to characterize wal_recover
as the replay of a write list that depends only on the log bytes. -/
def recWritesAux : Nat → List Byte → List Nat → List (Nat × Page)
  | 0, _, _ => []
  | fuel + 1, bs, committed =>
    if bs.length < 4 then []
    else
      let t := readLE32 bs 0
      if t = 2 then
        let tx := readLE32 bs 4
        let magic := readLE32 bs 8
        recWritesAux fuel (bs.drop COMMIT_REC_SIZE)
          (if magic = WAL_MAGIC_COMMIT ∧ tx < MAX_TX then tx :: committed else committed)
      else
        let tx := readLE32 bs 4
        let pid := readLE32 bs 8
        let data := (bs.drop 12).take PAGE_SIZE
        (if tx < MAX_TX ∧ tx ∈ committed then [(pid, data)] else []) ++
          recWritesAux fuel (bs.drop PAGE_REC_SIZE) committed

/-- Record-level restatement of the wal_recover scan, used to prove facts
about logs built from whole records. -/
def recRecords : List WalRecord → List Nat → DataFile → DataFile
  | [], _, db => db
  | .commit tx magic :: rs, committed, db =>
      recRecords rs
        (if magic = WAL_MAGIC_COMMIT ∧ tx < MAX_TX then tx :: committed else committed) db
  | .page tx pid data :: rs, committed, db =>
      recRecords rs committed
        (if tx < MAX_TX ∧ tx ∈ committed then write_page_to_db db pid data else db)

/-- Record-level committed set at the end of the wal_recover scan. -/
def recCommittedAux : List WalRecord → List Nat → List Nat
  | [], committed => committed
  | .commit tx magic :: rs, committed =>
      recCommittedAux rs
        (if magic = WAL_MAGIC_COMMIT ∧ tx < MAX_TX then tx :: committed else committed)
  | .page _ _ _ :: rs, committed => recCommittedAux rs committed

/-- Committed transactions observed by a full wal_recover scan. -/
def recCommitted (recs : List WalRecord) : List Nat := recCommittedAux recs []

/-- Forward pass of wal_read_page: builds the committed set from the records
that start before the snapshot (the budget is `snapshot - pos`; the whole
record starting before the snapshot is processed, exactly as the C loop whose
bound is checked only at the loop head). -/
def visScanAux : Nat → List Byte → Nat → List Nat → List Nat
  | 0, _, _, committed => committed
  | fuel + 1, bs, budget, committed =>
    if budget = 0 then committed
    else if bs.length < 4 then committed
    else
      let t := readLE32 bs 0
      if t = 2 then
        let tx := readLE32 bs 4
        let magic := readLE32 bs 8
        visScanAux fuel (bs.drop COMMIT_REC_SIZE) (budget - COMMIT_REC_SIZE)
          (if magic = WAL_MAGIC_COMMIT ∧ tx < MAX_TX then tx :: committed else committed)
      else
        visScanAux fuel (bs.drop PAGE_REC_SIZE) (budget - PAGE_REC_SIZE) committed

/-- Committed set used by wal_read_page for a reader with the given
snapshot. -/
def visCommitted (bs : List Byte) (snapshot : Nat) : List Nat :=
  visScanAux (bs.length + 1) bs snapshot []

/-- Reverse pass of wal_read_page: starting at the snapshot, step backwards
by sizeof(WalPageRecord) unconditionally (the loop runs only while the
position stays strictly above sizeof(WalPageRecord)), reinterpret the 4108
bytes at the resulting offset as a page record, and accept the first chunk
whose parsed fields satisfy the guard.  The step never adjusts for the
smaller commit records, so the read offsets are misaligned as soon as the
log contains any commit record. -/
def revScanAux : Nat → List Byte → Nat → Nat → List Nat → Option Page
  | 0, _, _, _, _ => none
  | fuel + 1, bs, pos, pid, committed =>
    if pos ≤ PAGE_REC_SIZE then none
    else
      let p := pos - PAGE_REC_SIZE
      if bs.length ≤ p then none
      else
        let t := readLE32 bs p
        let tx := readLE32 bs (p + 4)
        let rpid := readLE32 bs (p + 8)
        if t = 1 ∧ rpid = pid ∧ tx < MAX_TX ∧ tx ∈ committed then
          some ((bs.drop (p + 12)).take PAGE_SIZE)
        else revScanAux fuel bs p pid committed

/-- wal_read_page from wal_db_upgraded.c: forward committed-set pass bounded
by the snapshot, then the reverse scan. -/
def wal_read_page (bs : List Byte) (snapshot pid : Nat) : Option Page :=
  revScanAux (snapshot + 1) bs snapshot pid (visCommitted bs snapshot)

/-- Loop of checkpoint_int: scan forward while the position is below the
horizon and write through every record whose type field is 1 (no committed
check appears in the C code); every other type is skipped as a commit-sized
record. -/
def checkpointAux : Nat → List Byte → Nat → DataFile → DataFile
  | 0, _, _, db => db
  | fuel + 1, bs, budget, db =>
    if budget = 0 then db
    else if bs.length < 4 then db
    else
      let t := readLE32 bs 0
      if t = 1 then
        let pid := readLE32 bs 8
        let data := (bs.drop 12).take PAGE_SIZE
        checkpointAux fuel (bs.drop PAGE_REC_SIZE) (budget - PAGE_REC_SIZE)
          (write_page_to_db db pid data)
      else
        checkpointAux fuel (bs.drop COMMIT_REC_SIZE) (budget - COMMIT_REC_SIZE) db

/-- oldest_reader_snapshot from wal_db_upgraded.c: 0 when no reader is
registered, else the fold of min over the registered snapshots starting from
ULLONG_MAX. -/
def oldest_reader_snapshot (rs : List Nat) : Nat :=
  if rs = [] then 0 else rs.foldl Nat.min ULLONG_MAX

/-- WriteTxn from wal_db_upgraded.c. -/
structure WriteTxn where
  tx_id : Nat

/-- ReaderTxn from wal_db_upgraded.c. -/
structure ReaderTxn where
  snapshot : Nat

/-- CachedPage from wal_db_upgraded.c. -/
structure CachedPage where
  page_id : Nat
  owner_tx : Nat
  dirty : Bool
  data : Page

/-- The process-wide static state of the engine: data file, WAL file
contents, next_tx_id counter, registered reader snapshots (reader_snapshots
up to reader_count) and the page cache (cache up to cache_count, in
insertion order). -/
structure EngineState where
  dataFile : DataFile
  wal : List Byte
  nextTxId : Nat
  readerSnapshots : List Nat
  cache : List CachedPage

/-- begin_write_txn: hand out next_tx_id and post-increment it as the C
uint32_t does (wrapping at 2^32). -/
def begin_write_txn (s : EngineState) : WriteTxn × EngineState :=
  (⟨s.nextTxId⟩, { s with nextTxId := (s.nextTxId + 1) % U32 })

/-- begin_read_txn: capture the current WAL end as the snapshot and register
it while fewer than MAX_READERS snapshots are registered (overflow silently
drops the registration, as in the C). -/
def begin_read_txn (s : EngineState) : ReaderTxn × EngineState :=
  (⟨s.wal.length⟩,
    if s.readerSnapshots.length < MAX_READERS then
      { s with readerSnapshots := s.readerSnapshots ++ [s.wal.length] }
    else s)

/-- find_cached_page: first cache entry with the given page id. -/
def find_cached_page (cache : List CachedPage) (pid : Nat) : Option CachedPage :=
  cache.find? (fun c => c.page_id == pid)

/-- write_page_int composed with get_or_create_cached_page: overwrite the
existing entry for the page (setting data, dirty and owner_tx) or append a
fresh dirty entry; `none` models the fatal exit when the cache is full. -/
def write_page_int (s : EngineState) (tx : WriteTxn) (pid : Nat) (data : Page) :
    Option EngineState :=
  match s.cache.findIdx? (fun c => c.page_id == pid) with
  | some i => some { s with cache := s.cache.set i ⟨pid, tx.tx_id, true, data⟩ }
  | none =>
    if CACHE_SIZE ≤ s.cache.length then none
    else some { s with cache := s.cache ++ [⟨pid, tx.tx_id, true, data⟩] }

/-- Loop of commit_tx over the cache: for each entry that is dirty and owned
by the committing transaction, append its page record to the WAL (in cache
order) and clear the dirty flag.  Returns the updated cache and the appended
bytes. -/
def commitScan (tx : Nat) : List CachedPage → List CachedPage × List Byte
  | [] => ([], [])
  | c :: cs =>
    let rest := commitScan tx cs
    if c.dirty && c.owner_tx == tx then
      ({ c with dirty := false } :: rest.1,
        recBytes (.page tx c.page_id c.data) ++ rest.2)
    else (c :: rest.1, rest.2)

/-- commit_tx from wal_db_upgraded.c: append the transaction's dirty pages,
then the commit record with the correct magic (wal_commit), and clear the
dirty flags. -/
def commit_tx (s : EngineState) (tx : WriteTxn) : EngineState :=
  let r := commitScan tx.tx_id s.cache
  { s with
    cache := r.1
    wal := s.wal ++ r.2 ++ recBytes (.commit tx.tx_id WAL_MAGIC_COMMIT) }

/-- read_page_int from wal_db_upgraded.c: cache first (any owner, any dirty
state), then the WAL snapshot scan, then the data file. -/
def read_page_int (s : EngineState) (rx : ReaderTxn) (pid : Nat) : Page :=
  match find_cached_page s.cache pid with
  | some c => c.data
  | none =>
    match wal_read_page s.wal rx.snapshot pid with
    | some d => d
    | none => read_page_from_db s.dataFile pid

/-- checkpoint_int from wal_db_upgraded.c: compute the horizon from the
registered readers and run the bounded scan against the data file. -/
def checkpoint_int (s : EngineState) : EngineState :=
  { s with
    dataFile :=
      checkpointAux (s.wal.length + 1) s.wal
        (oldest_reader_snapshot s.readerSnapshots) s.dataFile }

/-- waldb_open on a fresh process: open the files (the data file and WAL
contents are the arguments), run wal_recover, and start from the initial
static state (next_tx_id = 1, no readers, empty cache). -/
def waldb_open (db : DataFile) (wal : List Byte) : EngineState :=
  { dataFile := wal_recover wal db
    wal := wal
    nextTxId := 1
    readerSnapshots := []
    cache := [] }

/-- The static state of a fresh process with empty files. -/
def initialState : EngineState :=
  { dataFile := fun _ => zeroPage
    wal := []
    nextTxId := 1
    readerSnapshots := []
    cache := [] }

/-- State transformer of one begin_write_txn call. -/
def stepWrite (s : EngineState) : EngineState := (begin_write_txn s).2

/-- The tx_id returned by the (k+1)-st begin_write call of a process started
from the initial state (k is 0-indexed). -/
def returnedTxId (k : Nat) : Nat :=
  (begin_write_txn (stepWrite^[k] initialState)).1.tx_id

/-- Exported read_page wrapper (the Python-friendly export): a null
transaction pointer yields the zeroed static buffer; otherwise the read goes
through read_page_int. -/
def read_page (txn : Option ReaderTxn) (s : EngineState) (pid : Nat) : Page :=
  match txn with
  | none => List.replicate 4096 0
  | some rx => read_page_int s rx pid

/-- Exported write_page wrapper: a null transaction pointer or a null data
pointer returns immediately with the state unchanged. -/
def write_page (txn : Option WriteTxn) (data : Option Page) (s : EngineState)
    (pid : Nat) : Option EngineState :=
  match txn, data with
  | some t, some d => write_page_int s t pid d
  | _, _ => some s

/-- An empty data file: every page reads as zero. -/
def dbZero : DataFile := fun _ => zeroPage

/-- The page filled with byte 0x01 (scenario S1 of the spec). -/
def onesPage : Page := List.replicate PAGE_SIZE 1

/-- The page filled with byte 0x11 (scenario S3 of the spec). -/
def elevensPage : Page := List.replicate PAGE_SIZE 17

/-- The page filled with byte 0xAA (scenario S2 of the spec). -/
def aaPage : Page := List.replicate PAGE_SIZE 170

/-- The WAL left by scenario S1: transaction 1 wrote page 0 and committed. -/
def s1Wal : List Byte :=
  walBytes [.page 1 0 onesPage, .commit 1 WAL_MAGIC_COMMIT]

/-- The WAL of a committed write of 0x11 to page 0 by transaction 1. -/
def s3Wal : List Byte :=
  walBytes [.page 1 0 elevensPage, .commit 1 WAL_MAGIC_COMMIT]

/-- The WAL left by a crash while transaction 1 was committing its write of
0xAA to page 0: the page record reached the log, the commit record did not. -/
def tornWal : List Byte := walBytes [.page 1 0 aaPage]

/-- The engine state after reopening over tornWal and beginning one reader
(whose snapshot, the WAL end, is 4108). -/
def tornState : EngineState :=
  { dataFile := wal_recover tornWal dbZero
    wal := tornWal
    nextTxId := 2
    readerSnapshots := [4108]
    cache := [] }

end WalDb

namespace HashJoin

/-!
Model of hash_join from src/src/c/hashjoin.c (the string-keyed, JSON-row
variant the spec's collaborator contract describes; src/hashjoin.c is the
older int64-keyed variant of the same operator).

Modelling conventions:
* a decoded row is an association list from field name to the string form of
  the field value (the C looks keys up with PyDict_GetItemString and
  stringifies them with PyObject_Str, so key comparison is on strings);
  an input row that fails json.loads is modelled as `none`;
* the linear-probed hash table of HASH_SIZE = 4096 buckets is modelled as
  the map it implements: an association list from key string to the list of
  stored rows in insertion order, so the entry count is the number of
  distinct keys stored.  The build loop's probe wraps around to its start
  slot exactly when all 4096 slots are occupied and none holds the incoming
  key, i.e. when a new key arrives with 4096 distinct keys already stored;
  that is the "[BUILD] Hash table full!" path (hashjoin.c:109-114), which
  jumps to cleanup before the probe phase, so hash_join returns
  result_count = 0 with nothing emitted.  buildTableGo returns `none` on
  that path; a re-occurring key is still found by the probe even in a full
  table, so its insertion succeeds;
* the C stores the raw inner row strings and re-parses them during the probe;
  since parsing is deterministic this is modelled by storing the decoded row;
* serialized output size is an arbitrary size function parameter (the C uses
  strlen of the JSON dump plus the trailing zero separator); a merged row is
  copied out and counted only when it fits in the remaining buffer space,
  and a row that does not fit is skipped without stopping the join.
-/

/-- HASH_SIZE from hashjoin.c: the number of hash-table buckets, hence the
maximum number of distinct inner keys the build phase can store. -/
def HASH_SIZE : Nat := 4096

/-- A decoded row: field name to string form of the value, in key order. -/
abbrev Row := List (String × String)

/-- Field lookup in a row (PyDict_GetItemString followed by PyObject_Str). -/
def rowGet (r : Row) (k : String) : Option String :=
  (r.find? (fun kv => kv.1 == k)).map (fun kv => kv.2)

/-- PyDict_Copy of the inner row followed by PyDict_Update with the outer
row: fields of the inner row keep their position but take the outer value
when the outer row has the same field; fields only in the outer row are
appended in their order. -/
def dictMerge (inner outer : Row) : Row :=
  inner.map (fun kv =>
    match rowGet outer kv.1 with
    | some v => (kv.1, v)
    | none => kv) ++
  outer.filter (fun kv => (rowGet inner kv.1).isNone)

/-- The build-phase table: key string to stored rows in insertion order. -/
abbrev Table := List (String × List Row)

/-- Table lookup: the group stored under a key, if any. -/
def tableLookup (t : Table) (k : String) : Option (List Row) :=
  (t.find? (fun e => e.1 == k)).map (fun e => e.2)

/-- Insertion of one row under a key: append to the existing group, or start
a new group (a fresh bucket in the C). -/
def tableInsert (t : Table) (k : String) (r : Row) : Table :=
  match t with
  | [] => [(k, [r])]
  | e :: es => if e.1 == k then (e.1, e.2 ++ [r]) :: es else e :: tableInsert es k r

/-- Build-phase loop of hash_join over the remaining inner rows: skip rows
that fail to parse and rows whose key field is missing; store every other
row under the string form of its key.  When the key is already stored the
linear probe finds its slot and the row is appended to that bucket; when
the key is new and all HASH_SIZE slots are occupied (the table holds
HASH_SIZE distinct keys) the probe wraps to its start slot and the C jumps
to cleanup ("[BUILD] Hash table full!"), modelled as `none`. -/
def buildTableGo (ikey : String) : List (Option Row) → Table → Option Table
  | [], t => some t
  | row? :: rest, t =>
    match row? with
    | none => buildTableGo ikey rest t
    | some row =>
      match rowGet row ikey with
      | none => buildTableGo ikey rest t
      | some k =>
        if (tableLookup t k).isSome then buildTableGo ikey rest (tableInsert t k row)
        else if HASH_SIZE ≤ t.length then none
        else buildTableGo ikey rest (tableInsert t k row)

/-- Build phase of hash_join, starting from the empty table; `none` is the
table-full abort. -/
def buildTable (inner : List (Option Row)) (ikey : String) : Option Table :=
  buildTableGo ikey inner []

/-- The key-to-group map the build loop computes when it does not abort
(used to state what a successful build produces). -/
def tableOfRows (ikey : String) : List (Option Row) → Table → Table
  | [], t => t
  | row? :: rest, t =>
    match row? with
    | none => tableOfRows ikey rest t
    | some row =>
      match rowGet row ikey with
      | none => tableOfRows ikey rest t
      | some k => tableOfRows ikey rest (tableInsert t k row)

/-- Emission of the merged rows for one outer row against its matching
group: each merge is appended (and counted) only if it fits in the remaining
output space; a row that does not fit is dropped and the loop continues. -/
def emitGroup (size : Row → Nat) (cap : Nat) (outer : Row) :
    List Row → Nat → Nat → List Row → Nat × Nat × List Row
  | [], pos, cnt, out => (pos, cnt, out)
  | r :: rs, pos, cnt, out =>
    let m := dictMerge r outer
    if pos + size m ≤ cap then
      emitGroup size cap outer rs (pos + size m) (cnt + 1) (out ++ [m])
    else emitGroup size cap outer rs pos cnt out

/-- Probe phase of hash_join: skip unparsable rows and rows with a missing
key; look the key up and emit the merges with every row of the matching
group. -/
def probeAux (t : Table) (okey : String) (size : Row → Nat) (cap : Nat) :
    List (Option Row) → Nat → Nat → List Row → Nat × Nat × List Row
  | [], pos, cnt, out => (pos, cnt, out)
  | row? :: rest, pos, cnt, out =>
    match row? with
    | none => probeAux t okey size cap rest pos cnt out
    | some o =>
      match rowGet o okey with
      | none => probeAux t okey size cap rest pos cnt out
      | some k =>
        match tableLookup t k with
        | none => probeAux t okey size cap rest pos cnt out
        | some g =>
          let e := emitGroup size cap o g pos cnt out
          probeAux t okey size cap rest e.1 e.2.1 e.2.2

/-- hash_join from src/src/c/hashjoin.c: build over the inner rows, probe
with the outer rows, return the emitted-row count and (as the contents of
the output buffer) the list of emitted rows.  A build-phase table-full
abort jumps to cleanup before the probe phase, returning result_count = 0
with nothing written to the output buffer. -/
def hash_join (inner outer : List (Option Row)) (ikey okey : String)
    (size : Row → Nat) (cap : Nat) : Nat × List Row :=
  match buildTable inner ikey with
  | none => (0, [])
  | some t =>
    let r := probeAux t okey size cap outer 0 0 []
    (r.2.1, r.2.2)

/-- The inner rows (parsed, key field present) whose key stringifies to k,
in input order. -/
def rowsWithKey (ikey k : String) : List (Option Row) → List Row
  | [] => []
  | row? :: rest =>
    match row? with
    | none => rowsWithKey ikey k rest
    | some r =>
      match rowGet r ikey with
      | none => rowsWithKey ikey k rest
      | some k' =>
        if k' = k then r :: rowsWithKey ikey k rest else rowsWithKey ikey k rest

/-- The first inner row (parsed, key field present) whose key stringifies
to k. -/
def firstInnerRowWithKey (inner : List (Option Row)) (ikey k : String) :
    Option Row :=
  match rowsWithKey ikey k inner with
  | [] => none
  | r :: _ => some r

/-- Specification-level list of matches: for each outer row that parses and
has the key field, and whose key equals the key of some inner row, the merge
of the first such inner row with the outer row.  With pairwise-distinct
inner keys the first matching inner row is the only one. -/
def joinMatches (inner outer : List (Option Row)) (ikey okey : String) :
    List Row :=
  outer.filterMap (fun row? =>
    match row? with
    | none => none
    | some o =>
      match rowGet o okey with
      | none => none
      | some k =>
        match firstInnerRowWithKey inner ikey k with
        | none => none
        | some r => some (dictMerge r o))

/-- Total serialized size of the ideal join output. -/
def joinSizeTotal (inner outer : List (Option Row)) (ikey okey : String)
    (size : Row → Nat) : Nat :=
  ((joinMatches inner outer ikey okey).map size).sum

/-- The keys of the parsed inner rows that carry the key field, in order. -/
def innerKeys (inner : List (Option Row)) (ikey : String) : List String :=
  inner.filterMap (fun row? => row?.bind (fun r => rowGet r ikey))

/-- The i-th key of the capacity counterexample: a string of i letters a -
pairwise distinct by length. -/
def capKey (i : Nat) : String :=
  String.mk (List.replicate i 'a')

/-- An inner (or outer) row of the capacity counterexample: field k holds
the i-th key. -/
def capRow (i : Nat) : Row :=
  [("k", capKey i)]

/-- HASH_SIZE + 1 = 4097 inner rows with pairwise-distinct keys: the build
phase stores the first 4096 and aborts on the last one. -/
def capInner : List (Option Row) :=
  (List.range (HASH_SIZE + 1)).map (fun i => some (capRow i))

/-- One outer row whose key matches the first inner row. -/
def capOuter : List (Option Row) :=
  [some (capRow 0)]

end HashJoin

namespace WalDb

/-! Byte-level decoding facts about the record serializers. -/

theorem le4_decode (n : Nat) (rest : List Byte) :
    readLE32 (toLE4 n ++ rest) 0 = n % U32 := by
  have h : readLE32 (toLE4 n ++ rest) 0 =
      n % 256 + 256 * (n / 256 % 256) + 65536 * (n / 65536 % 256) +
        16777216 * (n / 16777216 % 256) := rfl
  rw [h]
  unfold U32
  omega

theorem readLE32_hdr0 (a b c : Nat) (rest : List Byte) :
    readLE32 (toLE4 a ++ toLE4 b ++ toLE4 c ++ rest) 0 = a % U32 :=
  le4_decode a (toLE4 b ++ toLE4 c ++ rest)

theorem readLE32_hdr4 (a b c : Nat) (rest : List Byte) :
    readLE32 (toLE4 a ++ toLE4 b ++ toLE4 c ++ rest) 4 = b % U32 := by
  have h : readLE32 (toLE4 a ++ toLE4 b ++ toLE4 c ++ rest) 4 =
      readLE32 (toLE4 b ++ (toLE4 c ++ rest)) 0 := rfl
  rw [h, le4_decode]

theorem readLE32_hdr8 (a b c : Nat) (rest : List Byte) :
    readLE32 (toLE4 a ++ toLE4 b ++ toLE4 c ++ rest) 8 = c % U32 := by
  have h : readLE32 (toLE4 a ++ toLE4 b ++ toLE4 c ++ rest) 8 =
      readLE32 (toLE4 c ++ rest) 0 := rfl
  rw [h, le4_decode]

theorem hdr_drop12 (a b c : Nat) (rest : List Byte) :
    (toLE4 a ++ toLE4 b ++ toLE4 c ++ rest).drop 12 = rest := rfl

theorem hdr_length (a b c : Nat) (rest : List Byte) :
    (toLE4 a ++ toLE4 b ++ toLE4 c ++ rest).length = 12 + rest.length := by
  simp [toLE4]
  omega

theorem commit_bytes (tx m : Nat) (rest : List Byte) :
    recBytes (.commit tx m) ++ rest = toLE4 2 ++ toLE4 tx ++ toLE4 m ++ rest := by
  simp [recBytes]

theorem page_bytes (tx pid : Nat) (d rest : List Byte) :
    recBytes (.page tx pid d) ++ rest = toLE4 1 ++ toLE4 tx ++ toLE4 pid ++ (d ++ rest) := by
  simp [recBytes]

theorem page_drop_rec (d rest : List Byte) (a b c : Nat) (h : d.length = PAGE_SIZE) :
    (toLE4 a ++ toLE4 b ++ toLE4 c ++ (d ++ rest)).drop PAGE_REC_SIZE = rest := by
  have h2 : (toLE4 a ++ toLE4 b ++ toLE4 c ++ (d ++ rest)).drop PAGE_REC_SIZE =
      ((toLE4 a ++ toLE4 b ++ toLE4 c ++ (d ++ rest)).drop 12).drop PAGE_SIZE := by
    rw [List.drop_drop]; rfl
  rw [h2, hdr_drop12, ← h, List.drop_left]

theorem page_take_data (d rest : List Byte) (a b c : Nat) (h : d.length = PAGE_SIZE) :
    ((toLE4 a ++ toLE4 b ++ toLE4 c ++ (d ++ rest)).drop 12).take PAGE_SIZE = d := by
  rw [hdr_drop12, ← h, List.take_left]

theorem walBytes_nil : walBytes [] = [] := rfl

theorem walBytes_cons (r : WalRecord) (rs : List WalRecord) :
    walBytes (r :: rs) = recBytes r ++ walBytes rs := rfl

theorem wf_commit (tx m : Nat) (h : (WalRecord.commit tx m).wf = true) :
    tx < U32 ∧ m < U32 := by
  simpa [WalRecord.wf] using h

theorem wf_page (tx pid : Nat) (d : Page) (h : (WalRecord.page tx pid d).wf = true) :
    tx < U32 ∧ pid < U32 ∧ d.length = PAGE_SIZE := by
  simp only [WalRecord.wf, Bool.and_eq_true, decide_eq_true_eq] at h
  exact ⟨h.1.1, h.1.2, h.2⟩

/-! Step lemmas: how each scanner consumes one whole leading record. -/

theorem recoverAux_commit (fuel tx magic : Nat) (rest : List Byte)
    (committed : List Nat) (db : DataFile) (htx : tx < U32) (hm : magic < U32) :
    recoverAux (fuel + 1) (recBytes (.commit tx magic) ++ rest) committed db =
      recoverAux fuel rest
        (if magic = WAL_MAGIC_COMMIT ∧ tx < MAX_TX then tx :: committed else committed)
        db := by
  rw [commit_bytes]
  have hlen : ¬ (toLE4 2 ++ toLE4 tx ++ toLE4 magic ++ rest).length < 4 := by
    rw [hdr_length]; omega
  simp only [recoverAux]
  rw [if_neg hlen, readLE32_hdr0]
  rw [show (2 : Nat) % U32 = 2 from by norm_num [U32], if_pos rfl]
  rw [readLE32_hdr4, readLE32_hdr8, Nat.mod_eq_of_lt htx, Nat.mod_eq_of_lt hm,
    show COMMIT_REC_SIZE = 12 from rfl, hdr_drop12]

theorem recoverAux_page (fuel tx pid : Nat) (d rest : List Byte)
    (committed : List Nat) (db : DataFile) (htx : tx < U32) (hpid : pid < U32)
    (hd : d.length = PAGE_SIZE) :
    recoverAux (fuel + 1) (recBytes (.page tx pid d) ++ rest) committed db =
      recoverAux fuel rest committed
        (if tx < MAX_TX ∧ tx ∈ committed then write_page_to_db db pid d else db) := by
  rw [page_bytes]
  have hlen : ¬ (toLE4 1 ++ toLE4 tx ++ toLE4 pid ++ (d ++ rest)).length < 4 := by
    rw [hdr_length]; omega
  simp only [recoverAux]
  rw [if_neg hlen, readLE32_hdr0]
  rw [show (1 : Nat) % U32 = 1 from by norm_num [U32],
    if_neg (by norm_num : ¬ (1 : Nat) = 2)]
  rw [readLE32_hdr4, readLE32_hdr8, Nat.mod_eq_of_lt htx, Nat.mod_eq_of_lt hpid,
    page_drop_rec d rest 1 tx pid hd, page_take_data d rest 1 tx pid hd]

end WalDb

namespace WalDb

theorem recoverAux_nil (fuel : Nat) (committed : List Nat) (db : DataFile) :
    recoverAux fuel [] committed db = db := by
  cases fuel <;> simp [recoverAux]

theorem recWritesAux_commit (fuel tx magic : Nat) (rest : List Byte)
    (committed : List Nat) (htx : tx < U32) (hm : magic < U32) :
    recWritesAux (fuel + 1) (recBytes (.commit tx magic) ++ rest) committed =
      recWritesAux fuel rest
        (if magic = WAL_MAGIC_COMMIT ∧ tx < MAX_TX then tx :: committed else committed) := by
  rw [commit_bytes]
  have hlen : ¬ (toLE4 2 ++ toLE4 tx ++ toLE4 magic ++ rest).length < 4 := by
    rw [hdr_length]; omega
  simp only [recWritesAux]
  rw [if_neg hlen, readLE32_hdr0]
  rw [show (2 : Nat) % U32 = 2 from by norm_num [U32], if_pos rfl]
  rw [readLE32_hdr4, readLE32_hdr8, Nat.mod_eq_of_lt htx, Nat.mod_eq_of_lt hm,
    show COMMIT_REC_SIZE = 12 from rfl, hdr_drop12]

theorem recWritesAux_page (fuel tx pid : Nat) (d rest : List Byte)
    (committed : List Nat) (htx : tx < U32) (hpid : pid < U32)
    (hd : d.length = PAGE_SIZE) :
    recWritesAux (fuel + 1) (recBytes (.page tx pid d) ++ rest) committed =
      (if tx < MAX_TX ∧ tx ∈ committed then [(pid, d)] else []) ++
        recWritesAux fuel rest committed := by
  rw [page_bytes]
  have hlen : ¬ (toLE4 1 ++ toLE4 tx ++ toLE4 pid ++ (d ++ rest)).length < 4 := by
    rw [hdr_length]; omega
  simp only [recWritesAux]
  rw [if_neg hlen, readLE32_hdr0]
  rw [show (1 : Nat) % U32 = 1 from by norm_num [U32],
    if_neg (by norm_num : ¬ (1 : Nat) = 2)]
  rw [readLE32_hdr4, readLE32_hdr8, Nat.mod_eq_of_lt htx, Nat.mod_eq_of_lt hpid,
    page_drop_rec d rest 1 tx pid hd, page_take_data d rest 1 tx pid hd]

theorem recWritesAux_nil (fuel : Nat) (committed : List Nat) :
    recWritesAux fuel [] committed = [] := by
  cases fuel <;> simp [recWritesAux]

theorem visScanAux_commit (fuel tx magic budget : Nat) (rest : List Byte)
    (committed : List Nat) (htx : tx < U32) (hm : magic < U32) (hb : budget ≠ 0) :
    visScanAux (fuel + 1) (recBytes (.commit tx magic) ++ rest) budget committed =
      visScanAux fuel rest (budget - COMMIT_REC_SIZE)
        (if magic = WAL_MAGIC_COMMIT ∧ tx < MAX_TX then tx :: committed else committed) := by
  rw [commit_bytes]
  have hlen : ¬ (toLE4 2 ++ toLE4 tx ++ toLE4 magic ++ rest).length < 4 := by
    rw [hdr_length]; omega
  simp only [visScanAux]
  rw [if_neg hb, if_neg hlen, readLE32_hdr0]
  rw [show (2 : Nat) % U32 = 2 from by norm_num [U32], if_pos rfl]
  rw [readLE32_hdr4, readLE32_hdr8, Nat.mod_eq_of_lt htx, Nat.mod_eq_of_lt hm,
    show COMMIT_REC_SIZE = 12 from rfl, hdr_drop12]

theorem visScanAux_page (fuel tx pid budget : Nat) (d rest : List Byte)
    (committed : List Nat) (htx : tx < U32) (hpid : pid < U32)
    (hd : d.length = PAGE_SIZE) (hb : budget ≠ 0) :
    visScanAux (fuel + 1) (recBytes (.page tx pid d) ++ rest) budget committed =
      visScanAux fuel rest (budget - PAGE_REC_SIZE) committed := by
  rw [page_bytes]
  have hlen : ¬ (toLE4 1 ++ toLE4 tx ++ toLE4 pid ++ (d ++ rest)).length < 4 := by
    rw [hdr_length]; omega
  simp only [visScanAux]
  rw [if_neg hb, if_neg hlen, readLE32_hdr0]
  rw [show (1 : Nat) % U32 = 1 from by norm_num [U32],
    if_neg (by norm_num : ¬ (1 : Nat) = 2)]
  rw [page_drop_rec d rest 1 tx pid hd]

theorem visScanAux_nil (fuel budget : Nat) (committed : List Nat) :
    visScanAux fuel [] budget committed = committed := by
  cases fuel with
  | zero => simp [visScanAux]
  | succ f =>
    simp only [visScanAux]
    by_cases hb : budget = 0
    · rw [if_pos hb]
    · rw [if_neg hb, if_pos (by simp : ([] : List Byte).length < 4)]

theorem visScanAux_budget_zero (fuel : Nat) (bs : List Byte) (committed : List Nat) :
    visScanAux fuel bs 0 committed = committed := by
  cases fuel <;> simp [visScanAux]

theorem checkpointAux_commit (fuel tx magic budget : Nat) (rest : List Byte)
    (db : DataFile) (htx : tx < U32) (hm : magic < U32) (hb : budget ≠ 0) :
    checkpointAux (fuel + 1) (recBytes (.commit tx magic) ++ rest) budget db =
      checkpointAux fuel rest (budget - COMMIT_REC_SIZE) db := by
  rw [commit_bytes]
  have hlen : ¬ (toLE4 2 ++ toLE4 tx ++ toLE4 magic ++ rest).length < 4 := by
    rw [hdr_length]; omega
  simp only [checkpointAux]
  rw [if_neg hb, if_neg hlen, readLE32_hdr0]
  rw [show (2 : Nat) % U32 = 2 from by norm_num [U32],
    if_neg (by norm_num : ¬ (2 : Nat) = 1),
    show COMMIT_REC_SIZE = 12 from rfl, hdr_drop12]

theorem checkpointAux_page (fuel tx pid budget : Nat) (d rest : List Byte)
    (db : DataFile) (htx : tx < U32) (hpid : pid < U32)
    (hd : d.length = PAGE_SIZE) (hb : budget ≠ 0) :
    checkpointAux (fuel + 1) (recBytes (.page tx pid d) ++ rest) budget db =
      checkpointAux fuel rest (budget - PAGE_REC_SIZE) (write_page_to_db db pid d) := by
  rw [page_bytes]
  have hlen : ¬ (toLE4 1 ++ toLE4 tx ++ toLE4 pid ++ (d ++ rest)).length < 4 := by
    rw [hdr_length]; omega
  simp only [checkpointAux]
  rw [if_neg hb, if_neg hlen, readLE32_hdr0]
  rw [show (1 : Nat) % U32 = 1 from by norm_num [U32], if_pos rfl]
  rw [readLE32_hdr8, Nat.mod_eq_of_lt hpid,
    page_drop_rec d rest 1 tx pid hd, page_take_data d rest 1 tx pid hd]

/-! Characterization of wal_recover as the replay of a byte-determined write
list, and the idempotence of such replays. -/

theorem recoverAux_eq_applyWrites (fuel : Nat) :
    ∀ (bs : List Byte) (committed : List Nat) (db : DataFile),
      recoverAux fuel bs committed db = applyWrites (recWritesAux fuel bs committed) db := by
  induction fuel with
  | zero => intro bs committed db; simp [recoverAux, recWritesAux, applyWrites]
  | succ f ih =>
    intro bs committed db
    simp only [recoverAux, recWritesAux]
    by_cases hlen : bs.length < 4
    · rw [if_pos hlen, if_pos hlen]; simp [applyWrites]
    · rw [if_neg hlen, if_neg hlen]
      by_cases ht : readLE32 bs 0 = 2
      · rw [if_pos ht, if_pos ht, ih]
      · rw [if_neg ht, if_neg ht, ih]
        by_cases hc : readLE32 bs 4 < MAX_TX ∧ readLE32 bs 4 ∈ committed
        · rw [if_pos hc, if_pos hc]
          simp [applyWrites, write_page_to_db]
        · rw [if_neg hc, if_neg hc]
          simp [applyWrites]

theorem applyWrites_apply (ws : List (Nat × Page)) :
    ∀ (db : DataFile) (q : Nat),
      applyWrites ws db q = (lastWrite ws q).getD (db q) := by
  induction ws with
  | nil => intro db q; simp [applyWrites, lastWrite]
  | cons w ws ih =>
    intro db q
    have h1 : applyWrites (w :: ws) db = applyWrites ws (write_page_to_db db w.1 w.2) := rfl
    rw [h1, ih]
    simp only [lastWrite]
    cases h : lastWrite ws q with
    | some d => simp
    | none =>
      simp only [Option.getD_none]
      by_cases hq : w.1 = q
      · rw [if_pos hq]
        simp [write_page_to_db, hq.symm]
      · rw [if_neg hq]
        simp only [Option.getD_none, write_page_to_db]
        rw [if_neg (fun hh => hq hh.symm)]

theorem applyWrites_idem (ws : List (Nat × Page)) (db : DataFile) :
    applyWrites ws (applyWrites ws db) = applyWrites ws db := by
  funext q
  rw [applyWrites_apply, applyWrites_apply]
  cases h : lastWrite ws q <;> simp [h, applyWrites_apply]

end WalDb

namespace WalDb

theorem recBytes_commit_length (tx m : Nat) :
    (recBytes (.commit tx m)).length = 12 := by
  simp [recBytes, toLE4]

theorem recBytes_page_length (tx pid : Nat) (d : Page) :
    (recBytes (.page tx pid d)).length = 12 + d.length := by
  simp [recBytes, toLE4]
  omega

theorem walBytes_length_ge (recs : List WalRecord) :
    recs.length ≤ (walBytes recs).length := by
  induction recs with
  | nil => simp [walBytes]
  | cons r rs ih =>
    rw [walBytes_cons]
    have h : 1 ≤ (recBytes r).length := by
      cases r with
      | page tx pid d => rw [recBytes_page_length]; omega
      | commit tx m => rw [recBytes_commit_length]; omega
    simp only [List.length_append, List.length_cons]
    omega

/-- A full wal_recover scan of a log of whole records is the record-level
scan. -/
theorem recoverAux_walBytes (recs : List WalRecord) :
    ∀ (fuel : Nat) (committed : List Nat) (db : DataFile),
      (∀ r ∈ recs, r.wf = true) → recs.length < fuel →
      recoverAux fuel (walBytes recs) committed db = recRecords recs committed db := by
  induction recs with
  | nil =>
    intro fuel committed db _ _
    rw [walBytes_nil, recoverAux_nil]
    rfl
  | cons r rs ih =>
    intro fuel committed db hwf hfuel
    cases fuel with
    | zero => omega
    | succ f =>
      rw [walBytes_cons]
      have hwfr := hwf r (List.mem_cons_self r rs)
      have hwfs : ∀ x ∈ rs, x.wf = true := fun x hx => hwf x (List.mem_cons_of_mem r hx)
      have hf : rs.length < f := by simp at hfuel; omega
      cases r with
      | commit tx m =>
        obtain ⟨htx, hm⟩ := wf_commit tx m hwfr
        rw [recoverAux_commit f tx m (walBytes rs) committed db htx hm]
        rw [ih f _ db hwfs hf]
        rfl
      | page tx pid d =>
        obtain ⟨htx, hpid, hd⟩ := wf_page tx pid d hwfr
        rw [recoverAux_page f tx pid d (walBytes rs) committed db htx hpid hd]
        rw [ih f committed _ hwfs hf]
        rfl

/-- Transactions with no correct-magic commit record never enter the
committed set of the record-level recovery scan. -/
theorem recCommittedAux_not_mem (T : Nat) (recs : List WalRecord) :
    ∀ acc : List Nat, hasGoodCommit recs T = false → T ∉ acc →
      T ∉ recCommittedAux recs acc := by
  induction recs with
  | nil => intro acc _ hacc; exact hacc
  | cons r rs ih =>
    intro acc hgc hacc
    have hgc1 : isGoodCommitOfB T r = false := by
      simp [hasGoodCommit, List.any_cons] at hgc
      simp [hgc.1]
    have hgcs : hasGoodCommit rs T = false := by
      simp [hasGoodCommit, List.any_cons] at hgc ⊢
      exact hgc.2
    cases r with
    | page tx pid d => exact ih acc hgcs hacc
    | commit tx m =>
      simp only [recCommittedAux]
      by_cases hc : m = WAL_MAGIC_COMMIT ∧ tx < MAX_TX
      · rw [if_pos hc]
        have htxT : tx ≠ T := by
          intro he
          simp [isGoodCommitOfB, he, hc.1] at hgc1
        refine ih (tx :: acc) hgcs ?_
        intro hmem
        rcases List.mem_cons.mp hmem with h1 | h1
        · exact htxT h1.symm
        · exact hacc h1
      · rw [if_neg hc]
        exact ih acc hgcs hacc

/-- The record-level recovery scan ignores page records of a transaction
that has no correct-magic commit record anywhere in the log. -/
theorem recRecords_filter (T : Nat) (recs : List WalRecord) :
    ∀ (committed : List Nat) (db : DataFile),
      hasGoodCommit recs T = false → T ∉ committed →
      recRecords recs committed db =
        recRecords (recs.filter (fun r => !(isPageOfB T r))) committed db := by
  induction recs with
  | nil => intro committed db _ _; rfl
  | cons r rs ih =>
    intro committed db hgc hmem
    have hgc1 : isGoodCommitOfB T r = false := by
      simp [hasGoodCommit, List.any_cons] at hgc
      simp [hgc.1]
    have hgcs : hasGoodCommit rs T = false := by
      simp [hasGoodCommit, List.any_cons] at hgc ⊢
      exact hgc.2
    cases r with
    | page tx pid d =>
      by_cases hT : tx = T
      · have hfilter : (List.filter (fun r => !(isPageOfB T r))
            (WalRecord.page tx pid d :: rs)) =
            rs.filter (fun r => !(isPageOfB T r)) := by
          simp [List.filter_cons, isPageOfB, hT]
        rw [hfilter]
        have hskip : ¬ (tx < MAX_TX ∧ tx ∈ committed) := by
          rintro ⟨_, hc⟩
          exact hmem (hT ▸ hc)
        simp only [recRecords, if_neg hskip]
        exact ih committed db hgcs hmem
      · have hfilter : (List.filter (fun r => !(isPageOfB T r))
            (WalRecord.page tx pid d :: rs)) =
            WalRecord.page tx pid d :: rs.filter (fun r => !(isPageOfB T r)) := by
          simp [List.filter_cons, isPageOfB, hT]
        rw [hfilter]
        simp only [recRecords]
        exact ih committed _ hgcs hmem
    | commit tx m =>
      have hfilter : (List.filter (fun r => !(isPageOfB T r))
          (WalRecord.commit tx m :: rs)) =
          WalRecord.commit tx m :: rs.filter (fun r => !(isPageOfB T r)) := by
        simp [List.filter_cons, isPageOfB]
      rw [hfilter]
      simp only [recRecords]
      by_cases hc : m = WAL_MAGIC_COMMIT ∧ tx < MAX_TX
      · rw [if_pos hc]
        have htxT : tx ≠ T := by
          intro he
          simp [isGoodCommitOfB, he, hc.1] at hgc1
        refine ih _ db hgcs ?_
        intro hx
        rcases List.mem_cons.mp hx with h1 | h1
        · exact htxT h1.symm
        · exact hmem h1
      · rw [if_neg hc]
        exact ih committed db hgcs hmem

/-- Transactions with no correct-magic commit record never enter the
committed set of the wal_read_page forward pass. -/
theorem visScanAux_not_mem (T : Nat) (recs : List WalRecord) :
    ∀ (fuel budget : Nat) (acc : List Nat),
      (∀ r ∈ recs, r.wf = true) → recs.length < fuel →
      hasGoodCommit recs T = false → T ∉ acc →
      T ∉ visScanAux fuel (walBytes recs) budget acc := by
  induction recs with
  | nil =>
    intro fuel budget acc _ _ _ hacc
    rw [walBytes_nil, visScanAux_nil]
    exact hacc
  | cons r rs ih =>
    intro fuel budget acc hwf hfuel hgc hacc
    cases fuel with
    | zero => omega
    | succ f =>
      by_cases hb : budget = 0
      · rw [hb, visScanAux_budget_zero]; exact hacc
      · rw [walBytes_cons]
        have hwfr := hwf r (List.mem_cons_self r rs)
        have hwfs : ∀ x ∈ rs, x.wf = true := fun x hx => hwf x (List.mem_cons_of_mem r hx)
        have hf : rs.length < f := by simp at hfuel; omega
        have hgc1 : isGoodCommitOfB T r = false := by
          simp [hasGoodCommit, List.any_cons] at hgc
          simp [hgc.1]
        have hgcs : hasGoodCommit rs T = false := by
          simp [hasGoodCommit, List.any_cons] at hgc ⊢
          exact hgc.2
        cases r with
        | commit tx m =>
          obtain ⟨htx, hm⟩ := wf_commit tx m hwfr
          rw [visScanAux_commit f tx m budget (walBytes rs) acc htx hm hb]
          by_cases hc : m = WAL_MAGIC_COMMIT ∧ tx < MAX_TX
          · rw [if_pos hc]
            have htxT : tx ≠ T := by
              intro he
              simp [isGoodCommitOfB, he, hc.1] at hgc1
            refine ih f _ (tx :: acc) hwfs hf hgcs ?_
            intro hx
            rcases List.mem_cons.mp hx with h1 | h1
            · exact htxT h1.symm
            · exact hacc h1
          · rw [if_neg hc]
            exact ih f _ acc hwfs hf hgcs hacc
        | page tx pid d =>
          obtain ⟨htx, hpid, hd⟩ := wf_page tx pid d hwfr
          rw [visScanAux_page f tx pid budget d (walBytes rs) acc htx hpid hd hb]
          exact ih f _ acc hwfs hf hgcs hacc

/-- Inversion of the reverse scan: any returned page image is the data slice
of a 4108-byte chunk whose reinterpreted header passed the guard, so in
particular whose parsed tx_id is in the committed set of the forward pass. -/
theorem revScanAux_inv (fuel : Nat) :
    ∀ (bs : List Byte) (pos pid : Nat) (committed : List Nat) (d : Page),
      revScanAux fuel bs pos pid committed = some d →
      ∃ p, readLE32 bs p = 1 ∧ readLE32 bs (p + 8) = pid ∧
        readLE32 bs (p + 4) < MAX_TX ∧ readLE32 bs (p + 4) ∈ committed ∧
        d = (bs.drop (p + 12)).take PAGE_SIZE := by
  induction fuel with
  | zero => intro bs pos pid committed d h; simp [revScanAux] at h
  | succ f ih =>
    intro bs pos pid committed d h
    simp only [revScanAux] at h
    by_cases h1 : pos ≤ PAGE_REC_SIZE
    · rw [if_pos h1] at h; exact absurd h (by simp)
    · rw [if_neg h1] at h
      by_cases h2 : bs.length ≤ pos - PAGE_REC_SIZE
      · rw [if_pos h2] at h; exact absurd h (by simp)
      · rw [if_neg h2] at h
        by_cases h3 : readLE32 bs (pos - PAGE_REC_SIZE) = 1 ∧
            readLE32 bs (pos - PAGE_REC_SIZE + 8) = pid ∧
            readLE32 bs (pos - PAGE_REC_SIZE + 4) < MAX_TX ∧
            readLE32 bs (pos - PAGE_REC_SIZE + 4) ∈ committed
        · rw [if_pos h3] at h
          refine ⟨pos - PAGE_REC_SIZE, h3.1, h3.2.1, h3.2.2.1, h3.2.2.2, ?_⟩
          exact (Option.some_inj.mp h).symm
        · rw [if_neg h3] at h
          exact ih bs (pos - PAGE_REC_SIZE) pid committed d h

/-- With an empty committed set the reverse scan never accepts a chunk. -/
theorem revScanAux_empty (fuel : Nat) (bs : List Byte) (pos pid : Nat) :
    revScanAux fuel bs pos pid [] = none := by
  cases h : revScanAux fuel bs pos pid [] with
  | none => rfl
  | some d =>
    obtain ⟨p, _, _, _, hmem, _⟩ := revScanAux_inv fuel bs pos pid [] d h
    exact absurd hmem (List.not_mem_nil _)

/-- On a log of page records only, the forward pass adds nothing to the
committed set. -/
theorem visScanAux_all_pages (recs : List WalRecord) :
    ∀ (fuel budget : Nat) (acc : List Nat),
      (∀ r ∈ recs, r.wf = true) → (∀ r ∈ recs, isPageB r = true) →
      recs.length < fuel →
      visScanAux fuel (walBytes recs) budget acc = acc := by
  induction recs with
  | nil => intro fuel budget acc _ _ _; rw [walBytes_nil, visScanAux_nil]
  | cons r rs ih =>
    intro fuel budget acc hwf hpg hfuel
    cases fuel with
    | zero => omega
    | succ f =>
      by_cases hb : budget = 0
      · rw [hb, visScanAux_budget_zero]
      · cases r with
        | commit tx m =>
          have := hpg _ (List.mem_cons_self _ rs)
          simp [isPageB] at this
        | page tx pid d =>
          obtain ⟨htx, hpid, hd⟩ := wf_page tx pid d (hwf _ (List.mem_cons_self _ rs))
          rw [walBytes_cons,
            visScanAux_page f tx pid budget d (walBytes rs) acc htx hpid hd hb]
          exact ih f _ acc (fun x hx => hwf x (List.mem_cons_of_mem _ hx))
            (fun x hx => hpg x (List.mem_cons_of_mem _ hx)) (by simp at hfuel; omega)

/-- On a log of page records only, the record-level recovery scan writes
nothing when started from an empty committed set. -/
theorem recRecords_all_pages (recs : List WalRecord) :
    ∀ db : DataFile, (∀ r ∈ recs, isPageB r = true) →
      recRecords recs [] db = db := by
  induction recs with
  | nil => intro db _; rfl
  | cons r rs ih =>
    intro db hpg
    cases r with
    | commit tx m =>
      have := hpg _ (List.mem_cons_self _ rs)
      simp [isPageB] at this
    | page tx pid d =>
      simp only [recRecords, List.not_mem_nil, and_false, if_false]
      exact ih db (fun x hx => hpg x (List.mem_cons_of_mem _ hx))

end WalDb

namespace WalDb

/-! Shallow evaluation helpers for the concrete scenario logs: all lengths
and byte reads are obtained by lemmas, never by deep reduction of the
4096-byte page lists. -/

theorem readLE32_hdr12 (a b c : Nat) (rest : List Byte) :
    readLE32 (toLE4 a ++ toLE4 b ++ toLE4 c ++ rest) 12 = readLE32 rest 0 := rfl

theorem readLE32_cons4 (c : Nat) (l : List Byte) :
    readLE32 (c :: c :: c :: c :: l) 0 = c + 256 * c + 65536 * c + 16777216 * c := rfl

theorem readLE32_replicate (n c : Nat) (rest : List Byte) :
    readLE32 (List.replicate (n + 4) c ++ rest) 0 =
      c + 256 * c + 65536 * c + 16777216 * c := by
  have h : List.replicate (n + 4) c ++ rest =
      c :: c :: c :: c :: (List.replicate n c ++ rest) := by
    simp [List.replicate_succ]
  rw [h, readLE32_cons4]

theorem getD_replicate_zero (n a d : Nat) :
    (List.replicate (n + 1) a).getD 0 d = a := by
  simp [List.replicate_succ]

/-- Two constant pages with different fill bytes differ. -/
theorem replicate_page_ne (a b : Nat) (h : a ≠ b) :
    List.replicate PAGE_SIZE a ≠ List.replicate PAGE_SIZE b := by
  intro he
  have h0 := congrArg (fun l => l.getD 0 0) he
  rw [show PAGE_SIZE = 4095 + 1 from rfl] at h0
  simp only [getD_replicate_zero] at h0
  exact h h0

theorem onesPage_length : onesPage.length = PAGE_SIZE := by
  simp [onesPage]

theorem elevensPage_length : elevensPage.length = PAGE_SIZE := by
  simp [elevensPage]

theorem aaPage_length : aaPage.length = PAGE_SIZE := by
  simp [aaPage]

theorem s1Wal_length : s1Wal.length = 4120 := by
  simp only [s1Wal, walBytes, List.foldr_cons, List.foldr_nil, List.length_append,
    recBytes_page_length, recBytes_commit_length, onesPage_length, List.length_nil]
  norm_num [PAGE_SIZE]

theorem s3Wal_length : s3Wal.length = 4120 := by
  simp only [s3Wal, walBytes, List.foldr_cons, List.foldr_nil, List.length_append,
    recBytes_page_length, recBytes_commit_length, elevensPage_length, List.length_nil]
  norm_num [PAGE_SIZE]

theorem tornWal_length : tornWal.length = 4108 := by
  simp only [tornWal, walBytes, List.foldr_cons, List.foldr_nil, List.length_append,
    recBytes_page_length, aaPage_length, List.length_nil]
  norm_num [PAGE_SIZE]

theorem checkpointAux_budget_zero (fuel : Nat) (bs : List Byte) (db : DataFile) :
    checkpointAux fuel bs 0 db = db := by
  cases fuel <;> simp [checkpointAux]

theorem checkpointAux_nil (fuel budget : Nat) (db : DataFile) :
    checkpointAux fuel [] budget db = db := by
  cases fuel with
  | zero => simp [checkpointAux]
  | succ f =>
    simp only [checkpointAux]
    by_cases hb : budget = 0
    · rw [if_pos hb]
    · rw [if_neg hb, if_pos (by simp : ([] : List Byte).length < 4)]

/-- The misread chunk at offset 12 of a one-page-record-then-commit log:
its reinterpreted type field is the first four payload bytes. -/
theorem revScanAux_succ (fuel : Nat) (bs : List Byte) (pos pid : Nat)
    (committed : List Nat) :
    revScanAux (fuel + 1) bs pos pid committed =
      if pos ≤ PAGE_REC_SIZE then none
      else
        if bs.length ≤ pos - PAGE_REC_SIZE then none
        else
          if readLE32 bs (pos - PAGE_REC_SIZE) = 1 ∧
              readLE32 bs (pos - PAGE_REC_SIZE + 8) = pid ∧
              readLE32 bs (pos - PAGE_REC_SIZE + 4) < MAX_TX ∧
              readLE32 bs (pos - PAGE_REC_SIZE + 4) ∈ committed then
            some ((bs.drop (pos - PAGE_REC_SIZE + 12)).take PAGE_SIZE)
          else revScanAux fuel bs (pos - PAGE_REC_SIZE) pid committed := rfl

theorem single_commit_wal_read12 (tx pid c : Nat) (tail : List Byte) :
    readLE32 (walBytes [.page tx pid (List.replicate PAGE_SIZE c)] ++ tail) 12 =
      c + 256 * c + 65536 * c + 16777216 * c := by
  have h : walBytes [.page tx pid (List.replicate PAGE_SIZE c)] ++ tail =
      toLE4 1 ++ toLE4 tx ++ toLE4 pid ++ (List.replicate PAGE_SIZE c ++ tail) := by
    simp [walBytes, recBytes]
  rw [h, readLE32_hdr12,
    show (List.replicate PAGE_SIZE c : List Byte) = List.replicate (4092 + 4) c from rfl,
    readLE32_replicate]

/-- Evaluation of the reverse scan over the scenario log "one page record of
a constant page, then one commit record", at the snapshot equal to the log
end (4120): the single probed offset is 12, in the middle of the page
record; its reinterpreted type field is the constant payload byte repeated,
so for any payload byte other than zero paired with three zero bytes the
guard fails and the scan returns none, whatever the committed set is. -/
theorem revScan_single_commit_none (tx pid c : Nat) (committed : List Nat)
    (hc : c + 256 * c + 65536 * c + 16777216 * c ≠ 1) (tail : List Byte)
    (hq : Nat) (hlen : (walBytes [.page tx pid (List.replicate PAGE_SIZE c)] ++ tail).length = 4120) :
    revScanAux (4120 + 1) (walBytes [.page tx pid (List.replicate PAGE_SIZE c)] ++ tail)
      4120 hq committed = none := by
  rw [revScanAux_succ]
  rw [if_neg (by norm_num [PAGE_REC_SIZE, PAGE_SIZE] : ¬ (4120 : Nat) ≤ PAGE_REC_SIZE)]
  simp only [show (4120 : Nat) - PAGE_REC_SIZE = 12 from by norm_num [PAGE_REC_SIZE, PAGE_SIZE]]
  rw [if_neg (by rw [hlen]; norm_num :
    ¬ (walBytes [.page tx pid (List.replicate PAGE_SIZE c)] ++ tail).length ≤ 12)]
  rw [if_neg ?hguard]
  case hguard =>
    rw [single_commit_wal_read12]
    rintro ⟨h1, _⟩
    exact hc h1
  rw [show (4120 : Nat) = 4119 + 1 from rfl, revScanAux_succ]
  rw [if_pos (by norm_num [PAGE_REC_SIZE, PAGE_SIZE] : (12 : Nat) ≤ PAGE_REC_SIZE)]

end WalDb

namespace WalDb

theorem wf_page_intro (tx pid : Nat) (d : Page) (h1 : tx < U32) (h2 : pid < U32)
    (h3 : d.length = PAGE_SIZE) : (WalRecord.page tx pid d).wf = true := by
  simp only [WalRecord.wf, Bool.and_eq_true, decide_eq_true_eq]
  exact ⟨⟨h1, h2⟩, h3⟩

theorem wf_commit_intro (tx m : Nat) (h1 : tx < U32) (h2 : m < U32) :
    (WalRecord.commit tx m).wf = true := by
  simp only [WalRecord.wf, Bool.and_eq_true, decide_eq_true_eq]
  exact ⟨h1, h2⟩

theorem s1_recs_wf :
    ∀ r ∈ [WalRecord.page 1 0 onesPage, WalRecord.commit 1 WAL_MAGIC_COMMIT],
      r.wf = true := by
  intro r hr
  rcases List.mem_cons.mp hr with h | h
  · subst h
    exact wf_page_intro 1 0 onesPage (by norm_num [U32]) (by norm_num [U32]) onesPage_length
  · rcases List.mem_cons.mp h with h2 | h2
    · subst h2
      exact wf_commit_intro 1 WAL_MAGIC_COMMIT (by norm_num [U32])
        (by norm_num [U32, WAL_MAGIC_COMMIT])
    · exact absurd h2 (List.not_mem_nil r)

/-- Recovery over the scenario-S1 log writes nothing: the commit record of
transaction 1 is scanned after its page record, so the committed check fails
when the page record is replayed. -/
theorem s1_recover_eval : wal_recover s1Wal dbZero = dbZero := by
  show recoverAux (s1Wal.length + 1) s1Wal [] dbZero = dbZero
  rw [s1Wal_length,
    show s1Wal = walBytes [WalRecord.page 1 0 onesPage, WalRecord.commit 1 WAL_MAGIC_COMMIT]
      from rfl,
    recoverAux_walBytes _ _ _ _ s1_recs_wf (by norm_num)]
  simp only [recRecords]
  rw [if_neg (by simp : ¬ ((1 : Nat) < MAX_TX ∧ (1 : Nat) ∈ ([] : List Nat)))]

theorem s1_wal_split :
    s1Wal = walBytes [WalRecord.page 1 0 (List.replicate PAGE_SIZE 1)] ++
      recBytes (.commit 1 WAL_MAGIC_COMMIT) := by
  simp [s1Wal, walBytes, onesPage]

/-- The snapshot scan misses the committed write of scenario S1: the only
probed chunk offset is 12, whose reinterpreted type field is 0x01010101. -/
theorem s1_wal_read_eval : wal_read_page s1Wal 4120 0 = none := by
  show revScanAux (4120 + 1) s1Wal 4120 0 (visCommitted s1Wal 4120) = none
  rw [s1_wal_split]
  exact revScan_single_commit_none 1 0 1 _ (by norm_num) _ 0
    (by rw [← s1_wal_split]; exact s1Wal_length)

theorem s3_recs_wf :
    ∀ r ∈ [WalRecord.page 1 0 elevensPage, WalRecord.commit 1 WAL_MAGIC_COMMIT],
      r.wf = true := by
  intro r hr
  rcases List.mem_cons.mp hr with h | h
  · subst h
    exact wf_page_intro 1 0 elevensPage (by norm_num [U32]) (by norm_num [U32])
      elevensPage_length
  · rcases List.mem_cons.mp h with h2 | h2
    · subst h2
      exact wf_commit_intro 1 WAL_MAGIC_COMMIT (by norm_num [U32])
        (by norm_num [U32, WAL_MAGIC_COMMIT])
    · exact absurd h2 (List.not_mem_nil r)

theorem s3_recover_eval : wal_recover s3Wal dbZero = dbZero := by
  show recoverAux (s3Wal.length + 1) s3Wal [] dbZero = dbZero
  rw [s3Wal_length,
    show s3Wal = walBytes [WalRecord.page 1 0 elevensPage, WalRecord.commit 1 WAL_MAGIC_COMMIT]
      from rfl,
    recoverAux_walBytes _ _ _ _ s3_recs_wf (by norm_num)]
  simp only [recRecords]
  rw [if_neg (by simp : ¬ ((1 : Nat) < MAX_TX ∧ (1 : Nat) ∈ ([] : List Nat)))]

theorem s3_wal_split :
    s3Wal = walBytes [WalRecord.page 1 0 (List.replicate PAGE_SIZE 17)] ++
      recBytes (.commit 1 WAL_MAGIC_COMMIT) := by
  simp [s3Wal, walBytes, elevensPage]

/-- The snapshot scan misses the committed write of 0x11 to page 0: the only
probed chunk offset is 12, whose reinterpreted type field is 0x11111111. -/
theorem s3_wal_read_eval : wal_read_page s3Wal 4120 0 = none := by
  show revScanAux (4120 + 1) s3Wal 4120 0 (visCommitted s3Wal 4120) = none
  rw [s3_wal_split]
  exact revScan_single_commit_none 1 0 17 _ (by norm_num) _ 0
    (by rw [← s3_wal_split]; exact s3Wal_length)

theorem torn_recs_wf : ∀ r ∈ [WalRecord.page 1 0 aaPage], r.wf = true := by
  intro r hr
  rcases List.mem_cons.mp hr with h | h
  · subst h
    exact wf_page_intro 1 0 aaPage (by norm_num [U32]) (by norm_num [U32]) aaPage_length
  · exact absurd h (List.not_mem_nil r)

theorem torn_recover_eval : wal_recover tornWal dbZero = dbZero := by
  show recoverAux (tornWal.length + 1) tornWal [] dbZero = dbZero
  rw [tornWal_length,
    show tornWal = walBytes [WalRecord.page 1 0 aaPage] from rfl,
    recoverAux_walBytes _ _ _ _ torn_recs_wf (by norm_num)]
  refine recRecords_all_pages _ dbZero ?_
  intro r hr
  rw [List.mem_singleton] at hr
  subst hr
  rfl

theorem oldest_single : oldest_reader_snapshot [4108] = 4108 := by
  rw [oldest_reader_snapshot, if_neg (by simp)]
  show Nat.min ULLONG_MAX 4108 = 4108
  norm_num [ULLONG_MAX]

/-- Checkpoint over the torn log writes the uncommitted 0xAA page into the
data file: the scan checks only the type field, never the commit records. -/
theorem torn_checkpoint_fn :
    (checkpoint_int tornState).dataFile =
      write_page_to_db (wal_recover tornWal dbZero) 0 aaPage := by
  simp only [checkpoint_int, tornState]
  rw [tornWal_length, oldest_single]
  have hsplit : tornWal = recBytes (.page 1 0 aaPage) ++ [] := by
    simp [tornWal, walBytes]
  rw [hsplit,
    checkpointAux_page 4108 1 0 4108 aaPage [] _ (by norm_num [U32]) (by norm_num [U32])
      aaPage_length (by norm_num),
    checkpointAux_nil]

theorem torn_checkpoint_eval :
    (checkpoint_int tornState).dataFile 0 = aaPage := by
  rw [torn_checkpoint_fn]
  simp [write_page_to_db]

end WalDb

namespace WalDb

theorem nextTxId_iterate (k : Nat) :
    (stepWrite^[k] initialState).nextTxId = (1 + k) % U32 := by
  induction k with
  | zero =>
    rw [Function.iterate_zero_apply]
    show (1 : Nat) = (1 + 0) % U32
    norm_num [U32]
  | succ n ih =>
    rw [Function.iterate_succ_apply']
    show ((stepWrite^[n] initialState).nextTxId + 1) % U32 = (1 + (n + 1)) % U32
    rw [ih]
    unfold U32
    omega

theorem returnedTxId_eq (k : Nat) : returnedTxId k = (1 + k) % U32 := by
  show (stepWrite^[k] initialState).nextTxId = (1 + k) % U32
  exact nextTxId_iterate k

theorem nat_min_choice (a b : Nat) : Nat.min a b = a ∨ Nat.min a b = b :=
  min_choice a b

theorem foldl_min_mem (l : List Nat) : ∀ a, l.foldl Nat.min a ∈ a :: l := by
  induction l with
  | nil => intro a; simp [List.foldl_nil]
  | cons x xs ih =>
    intro a
    rw [List.foldl_cons]
    have h := ih (Nat.min a x)
    rcases List.mem_cons.mp h with h1 | h1
    · rcases nat_min_choice a x with hm | hm
      · rw [hm] at h1 ⊢; rw [h1]; exact List.mem_cons_self a (x :: xs)
      · rw [hm] at h1 ⊢; rw [h1]
        exact List.mem_cons_of_mem a (List.mem_cons_self x xs)
    · exact List.mem_cons_of_mem a (List.mem_cons_of_mem x h1)

theorem foldl_min_le_init (l : List Nat) : ∀ a, l.foldl Nat.min a ≤ a := by
  induction l with
  | nil => intro a; simp [List.foldl_nil]
  | cons x xs ih =>
    intro a
    rw [List.foldl_cons]
    exact le_trans (ih (Nat.min a x)) (Nat.min_le_left a x)

theorem foldl_min_le_mem (l : List Nat) : ∀ a x, x ∈ l → l.foldl Nat.min a ≤ x := by
  induction l with
  | nil => intro a x hx; exact absurd hx (List.not_mem_nil x)
  | cons y ys ih =>
    intro a x hx
    rw [List.foldl_cons]
    rcases List.mem_cons.mp hx with h1 | h1
    · subst h1
      exact le_trans (foldl_min_le_init ys (Nat.min a x)) (Nat.min_le_right a x)
    · exact ih (Nat.min a y) x h1

theorem oldest_spec (rs : List Nat) (hne : rs ≠ [])
    (hb : ∀ x ∈ rs, x ≤ ULLONG_MAX) :
    oldest_reader_snapshot rs ∈ rs ∧ ∀ x ∈ rs, oldest_reader_snapshot rs ≤ x := by
  rw [oldest_reader_snapshot, if_neg hne]
  constructor
  · have h := foldl_min_mem rs ULLONG_MAX
    rcases List.mem_cons.mp h with h1 | h1
    · cases rs with
      | nil => exact absurd rfl hne
      | cons x xs =>
        have hle := foldl_min_le_mem (x :: xs) ULLONG_MAX x (List.mem_cons_self x xs)
        rw [h1] at hle ⊢
        have hx := hb x (List.mem_cons_self x xs)
        have : x = ULLONG_MAX := le_antisymm hx hle
        rw [this]
        exact List.mem_cons_self _ xs
    · exact h1
  · exact foldl_min_le_mem rs ULLONG_MAX

end WalDb

namespace WalDb

/-- C1: the claim says recovery replays the payload of every page record
whose tx_id has a correct-magic commit record anywhere in the log, so that
after commit and reopen a read returns the committed data.  The code fails
this: in the scenario-S1 log (page record of transaction 1 for page 0 with
payload 0x01.., then the commit record), wal_recover checks the committed
set at the moment the page record is scanned, before the commit marker has
been reached, so it writes nothing; after reopening, a reader at the log end
reads page 0 as zero instead of the committed 0x01 page. -/
theorem C1_recovery_single_pass_eval :
    wal_recover s1Wal dbZero = dbZero ∧
    read_page_int (waldb_open dbZero s1Wal) ⟨s1Wal.length⟩ 0 = zeroPage ∧
    zeroPage ≠ onesPage := by
  refine ⟨s1_recover_eval, ?_, replicate_page_ne 0 1 (by norm_num)⟩
  simp only [read_page_int, waldb_open, find_cached_page, List.find?_nil, s1Wal_length,
    s1_wal_read_eval]
  rw [s1_recover_eval]
  rfl

/-- C2: the claim says that with an empty cache, read_page under snapshot S
returns the data of the latest page record of a committed transaction whose
commit ends at or before S.  The code fails this: for the log "page record
(tx 1, page 0, 0x11 fill) then commit record" and snapshot 4120 (= log end),
the page record ends at 4108 and the commit at 4120, both within the
snapshot, so the claim requires the 0x11 page; but the reverse scan steps
back by sizeof(WalPageRecord) = 4108 unconditionally, probing only offset
12, where the reinterpreted type field is 0x11111111, so the scan fails and
the read falls back to the (empty) data file, returning zero. -/
theorem C2_reverse_scan_misaligned_eval :
    wal_read_page s3Wal 4120 0 = none ∧
    s3Wal.length = 4120 ∧
    read_page_int ⟨dbZero, s3Wal, 2, [4120], []⟩ ⟨4120⟩ 0 = zeroPage ∧
    zeroPage ≠ elevensPage := by
  refine ⟨s3_wal_read_eval, s3Wal_length, ?_, replicate_page_ne 0 17 (by norm_num)⟩
  simp only [read_page_int, find_cached_page, List.find?_nil, s3_wal_read_eval]
  rfl

/-- C3: the claim says checkpoint writes only page records of committed
transactions into the data file.  The code fails this: over the torn log
consisting of a single page record of transaction 1 (payload 0xAA, page 0)
with no commit record at all, and one registered reader whose snapshot 4108
is the log end (so the horizon is 4108), checkpoint_int writes the
uncommitted 0xAA page into the data file, which before the checkpoint held
the zero page. -/
theorem C3_checkpoint_no_commit_check_eval :
    (checkpoint_int tornState).dataFile 0 = aaPage ∧
    tornState.dataFile 0 = zeroPage ∧
    hasGoodCommit [WalRecord.page 1 0 aaPage] 1 = false ∧
    oldest_reader_snapshot tornState.readerSnapshots = 4108 ∧
    aaPage ≠ zeroPage := by
  refine ⟨torn_checkpoint_eval, ?_, by simp [hasGoodCommit, isGoodCommitOfB], ?_,
    replicate_page_ne 170 0 (by norm_num)⟩
  · simp only [tornState]
    rw [torn_recover_eval]
    rfl
  · simp only [tornState]
    exact oldest_single

/-- C4 counterexample: with no reader registered, oldest_reader_snapshot
returns 0, not the WAL end, refuting the claim on the one-commit-record log
whose end offset is 12. -/
theorem C4_counterexample :
    oldest_reader_snapshot ([] : List Nat) = 0 ∧
    (walBytes [WalRecord.commit 1 WAL_MAGIC_COMMIT]).length = 12 ∧
    (0 : Nat) ≠ 12 := by
  refine ⟨rfl, ?_, by norm_num⟩
  simp [walBytes, recBytes_commit_length]

/-- C4 amended: the horizon used by checkpoint_int is
oldest_reader_snapshot of the registered snapshots; with at least one
registered reader (all snapshots being uint64 values) it is the minimum of
the registered snapshots, and with no registered reader it is 0, so such a
checkpoint processes none of the log. -/
theorem C4_horizon_amended :
    (∀ s : EngineState,
      (checkpoint_int s).dataFile =
        checkpointAux (s.wal.length + 1) s.wal
          (oldest_reader_snapshot s.readerSnapshots) s.dataFile) ∧
    oldest_reader_snapshot ([] : List Nat) = 0 ∧
    (∀ bs : List Byte, ∀ db : DataFile, checkpointAux (bs.length + 1) bs 0 db = db) ∧
    (∀ rs : List Nat, rs ≠ [] → (∀ x ∈ rs, x ≤ ULLONG_MAX) →
      oldest_reader_snapshot rs ∈ rs ∧ ∀ x ∈ rs, oldest_reader_snapshot rs ≤ x) := by
  exact ⟨fun s => rfl, rfl, fun bs db => checkpointAux_budget_zero (bs.length + 1) bs db,
    oldest_spec⟩

/-- C4 witness: the amended horizon characterization applied to the
registered snapshot list [7, 3]. -/
theorem C4_horizon_amended_witness :
    oldest_reader_snapshot [7, 3] ∈ [7, 3] ∧
      ∀ x ∈ [7, 3], oldest_reader_snapshot [7, 3] ≤ x :=
  C4_horizon_amended.2.2.2 [7, 3] (by simp) (by norm_num [ULLONG_MAX])

/-- C7: recovery is idempotent: for every WAL byte content and every initial
data file, running wal_recover twice yields the same data file as running it
once, because the write list replayed by recovery depends only on the log
bytes and replaying a fixed write list is idempotent. -/
theorem C7_recover_idempotent (bs : List Byte) (db : DataFile) :
    wal_recover bs (wal_recover bs db) = wal_recover bs db := by
  simp only [wal_recover, recoverAux_eq_applyWrites]
  exact applyWrites_idem _ db

/-- C8 counterexample: next_tx_id is a uint32, so the 2^32-th begin_write
call returns tx_id 0 (violating nonzero-ness and strict increase), and the
(2^32+1)-st call returns 1 again (violating no-reuse). -/
theorem C8_counterexample :
    returnedTxId (U32 - 1) = 0 ∧ returnedTxId U32 = returnedTxId 0 := by
  rw [returnedTxId_eq, returnedTxId_eq, returnedTxId_eq]
  unfold U32
  omega

/-- C8 amended: tx_ids are nonzero and strictly increasing over the first
2^32 - 1 begin_write calls (so no id is returned twice in that range); the
counter wraps at 2^32. -/
theorem C8_txid_amended (i j : Nat) (hij : i < j) (hj : j < U32 - 1) :
    0 < returnedTxId i ∧ returnedTxId i < returnedTxId j := by
  rw [returnedTxId_eq, returnedTxId_eq]
  unfold U32 at *
  omega

/-- C8 witness: the amended monotonicity applied to the first two calls. -/
theorem C8_txid_amended_witness :
    0 < returnedTxId 0 ∧ returnedTxId 0 < returnedTxId 1 :=
  C8_txid_amended 0 1 (by norm_num) (by norm_num [U32])

/-- C10: the exported read_page returns the zeroed 4096-byte buffer when the
transaction pointer is null, and the exported write_page returns with the
engine state unchanged when the transaction pointer or the data pointer is
null. -/
theorem C10_null_txn_safety :
    (∀ (s : EngineState) (pid : Nat), read_page none s pid = List.replicate 4096 0) ∧
    (∀ (s : EngineState) (pid : Nat) (d : Option Page), write_page none d s pid = some s) ∧
    (∀ (s : EngineState) (t : WriteTxn) (pid : Nat),
      write_page (some t) none s pid = some s) :=
  ⟨fun _ _ => rfl, fun s _ d => by cases d <;> rfl, fun _ _ _ => rfl⟩

end WalDb

namespace WalDb

/-! Support for the general crash-after-history case of claim C5: byte reads
and slices below a given prefix length ignore an appended suffix, the
reverse scan is insensitive to its fuel once the fuel covers the iteration
count, and an all-page tail neither feeds the committed set nor survives the
reverse scan's guard. -/

theorem walBytes_append (xs ys : List WalRecord) :
    walBytes (xs ++ ys) = walBytes xs ++ walBytes ys := by
  induction xs with
  | nil => simp [walBytes]
  | cons r rs ih =>
    rw [List.cons_append, walBytes_cons, walBytes_cons, ih, List.append_assoc]

theorem readLE32_append_left (xs ys : List Byte) (p : Nat) (h : p + 4 ≤ xs.length) :
    readLE32 (xs ++ ys) p = readLE32 xs p := by
  rw [readLE32, readLE32,
    List.getD_append _ _ _ _ (by omega), List.getD_append _ _ _ _ (by omega),
    List.getD_append _ _ _ _ (by omega), List.getD_append _ _ _ _ (by omega)]

theorem readLE32_append_right (xs ys : List Byte) (k : Nat) :
    readLE32 (xs ++ ys) (xs.length + k) = readLE32 ys k := by
  rw [readLE32, readLE32,
    show xs.length + k + 1 = xs.length + (k + 1) from by omega,
    show xs.length + k + 2 = xs.length + (k + 2) from by omega,
    show xs.length + k + 3 = xs.length + (k + 3) from by omega,
    List.getD_append_right _ _ _ _ (by omega), List.getD_append_right _ _ _ _ (by omega),
    List.getD_append_right _ _ _ _ (by omega), List.getD_append_right _ _ _ _ (by omega)]
  simp

theorem slice_append_left (xs ys : List Byte) (q n : Nat) (h : q + n ≤ xs.length) :
    ((xs ++ ys).drop q).take n = (xs.drop q).take n := by
  rw [List.drop_append_eq_append_drop,
    show q - xs.length = 0 from by omega, List.drop_zero,
    List.take_append_eq_append_take,
    show n - (xs.drop q).length = 0 from by simp; omega,
    List.take_zero, List.append_nil]

theorem revScanAux_stop (fuel : Nat) (bs : List Byte) (pos pid : Nat)
    (C : List Nat) (h : pos ≤ PAGE_REC_SIZE) :
    revScanAux fuel bs pos pid C = none := by
  cases fuel with
  | zero => rfl
  | succ f => rw [revScanAux_succ, if_pos h]

theorem revScanAux_fuel_irrel (bs : List Byte) (pid : Nat) (C : List Nat) :
    ∀ (f f' pos : Nat), pos < 4108 * f → pos < 4108 * f' →
      revScanAux f bs pos pid C = revScanAux f' bs pos pid C := by
  intro f
  induction f with
  | zero =>
    intro f' pos h _
    omega
  | succ f ih =>
    intro f' pos h h'
    by_cases hstop : pos ≤ PAGE_REC_SIZE
    · rw [revScanAux_stop (f + 1) bs pos pid C hstop, revScanAux_stop f' bs pos pid C hstop]
    · cases f' with
      | zero => omega
      | succ f'' =>
        rw [revScanAux_succ, revScanAux_succ, if_neg hstop, if_neg hstop]
        by_cases h2 : bs.length ≤ pos - PAGE_REC_SIZE
        · rw [if_pos h2, if_pos h2]
        · rw [if_neg h2, if_neg h2]
          by_cases h3 : readLE32 bs (pos - PAGE_REC_SIZE) = 1 ∧
              readLE32 bs (pos - PAGE_REC_SIZE + 8) = pid ∧
              readLE32 bs (pos - PAGE_REC_SIZE + 4) < MAX_TX ∧
              readLE32 bs (pos - PAGE_REC_SIZE + 4) ∈ C
          · rw [if_pos h3, if_pos h3]
          · rw [if_neg h3, if_neg h3]
            have hP : PAGE_REC_SIZE = 4108 := rfl
            exact ih f'' (pos - PAGE_REC_SIZE) (by omega) (by omega)

/-- The reverse scan started at or below the length of a byte prefix never
looks at an appended suffix. -/
theorem revScanAux_append (PRE EXT : List Byte) (pid : Nat) (C : List Nat) :
    ∀ (fuel pos : Nat), pos ≤ PRE.length →
      revScanAux fuel (PRE ++ EXT) pos pid C = revScanAux fuel PRE pos pid C := by
  intro fuel
  induction fuel with
  | zero => intro pos _; rfl
  | succ f ih =>
    intro pos hpos
    by_cases hstop : pos ≤ PAGE_REC_SIZE
    · rw [revScanAux_stop _ _ _ _ _ hstop, revScanAux_stop _ _ _ _ _ hstop]
    · have hP : PAGE_REC_SIZE = 4108 := rfl
      have hin : pos - PAGE_REC_SIZE + PAGE_REC_SIZE ≤ PRE.length := by omega
      rw [revScanAux_succ, revScanAux_succ, if_neg hstop, if_neg hstop]
      rw [if_neg (by simp only [List.length_append]; omega :
          ¬ (PRE ++ EXT).length ≤ pos - PAGE_REC_SIZE),
        if_neg (by omega : ¬ PRE.length ≤ pos - PAGE_REC_SIZE)]
      rw [readLE32_append_left PRE EXT _ (by omega),
        readLE32_append_left PRE EXT _ (by omega),
        readLE32_append_left PRE EXT _ (by omega),
        slice_append_left PRE EXT _ _ (by simp [PAGE_SIZE]; omega)]
      by_cases h3 : readLE32 PRE (pos - PAGE_REC_SIZE) = 1 ∧
          readLE32 PRE (pos - PAGE_REC_SIZE + 8) = pid ∧
          readLE32 PRE (pos - PAGE_REC_SIZE + 4) < MAX_TX ∧
          readLE32 PRE (pos - PAGE_REC_SIZE + 4) ∈ C
      · rw [if_pos h3, if_pos h3]
      · rw [if_neg h3, if_neg h3]
        exact ih (pos - PAGE_REC_SIZE) (by omega)

end WalDb

namespace WalDb

theorem isPageB_of_isPageOfB (T : Nat) (r : WalRecord) (h : isPageOfB T r = true) :
    isPageB r = true := by
  cases r with
  | page tx pid d => rfl
  | commit tx m => simp [isPageOfB] at h

/-- With a budget covering the whole serialized log, the wal_read_page
forward pass computes the same committed set as the recovery scan. -/
theorem visScanAux_full (recs : List WalRecord) :
    ∀ (fuel budget : Nat) (acc : List Nat),
      (∀ r ∈ recs, r.wf = true) → recs.length < fuel →
      (walBytes recs).length ≤ budget →
      visScanAux fuel (walBytes recs) budget acc = recCommittedAux recs acc := by
  induction recs with
  | nil =>
    intro fuel budget acc _ _ _
    rw [walBytes_nil, visScanAux_nil]
    rfl
  | cons r rs ih =>
    intro fuel budget acc hwf hfuel hbudget
    cases fuel with
    | zero => omega
    | succ f =>
      have hwfr := hwf r (List.mem_cons_self r rs)
      have hwfs : ∀ x ∈ rs, x.wf = true := fun x hx => hwf x (List.mem_cons_of_mem r hx)
      have hf : rs.length < f := by simp at hfuel; omega
      rw [walBytes_cons] at hbudget ⊢
      rw [List.length_append] at hbudget
      cases r with
      | commit tx m =>
        obtain ⟨htx, hm⟩ := wf_commit tx m hwfr
        have hlen : (recBytes (WalRecord.commit tx m)).length = 12 :=
          recBytes_commit_length tx m
        have hb : budget ≠ 0 := by omega
        rw [visScanAux_commit f tx m budget (walBytes rs) acc htx hm hb]
        rw [ih f (budget - COMMIT_REC_SIZE) _ hwfs hf
          (by rw [show COMMIT_REC_SIZE = 12 from rfl]; omega)]
        rfl
      | page tx pid d =>
        obtain ⟨htx, hpid, hd⟩ := wf_page tx pid d hwfr
        have hlen : (recBytes (WalRecord.page tx pid d)).length = 12 + PAGE_SIZE := by
          rw [recBytes_page_length, hd]
        have hb : budget ≠ 0 := by
          have : 0 < (recBytes (WalRecord.page tx pid d)).length := by rw [hlen]; omega
          omega
        rw [visScanAux_page f tx pid budget d (walBytes rs) acc htx hpid hd hb]
        rw [ih f (budget - PAGE_REC_SIZE) _ hwfs hf
          (by rw [show PAGE_REC_SIZE = 12 + PAGE_SIZE from rfl] at *; omega)]
        rfl

theorem recCommittedAux_append (xs ys : List WalRecord) :
    ∀ acc : List Nat,
      recCommittedAux (xs ++ ys) acc = recCommittedAux ys (recCommittedAux xs acc) := by
  induction xs with
  | nil => intro acc; rfl
  | cons r rs ih =>
    intro acc
    cases r with
    | commit tx m => exact ih _
    | page tx pid d => exact ih _

theorem recCommittedAux_pages (recs : List WalRecord)
    (h : ∀ r ∈ recs, isPageB r = true) :
    ∀ acc : List Nat, recCommittedAux recs acc = acc := by
  induction recs with
  | nil => intro acc; rfl
  | cons r rs ih =>
    intro acc
    cases r with
    | commit tx m =>
      have := h _ (List.mem_cons_self _ rs)
      simp [isPageB] at this
    | page tx pid d =>
      exact ih (fun x hx => h x (List.mem_cons_of_mem _ hx)) acc

/-- The reverse scan started at the log end ignores a trailing run of page
records of a transaction that is not in the committed set: the probes inside
the tail land exactly on those records' start offsets (the tail is page
records only, so the unconditional 4108-byte steps stay aligned there), and
each is rejected by the committed check; once the position re-enters the
prefix, the scan proceeds as if the tail were absent. -/
theorem revScan_tail_invisible (T pid : Nat) (C : List Nat) (hT : T ∉ C)
    (tail : List WalRecord) :
    ∀ (PRE : List Byte) (fuel : Nat),
      (∀ r ∈ tail, r.wf = true) → (∀ r ∈ tail, isPageOfB T r = true) →
      PRE.length + (walBytes tail).length < 4108 * fuel →
      revScanAux fuel (PRE ++ walBytes tail)
          (PRE.length + (walBytes tail).length) pid C =
        revScanAux fuel PRE PRE.length pid C := by
  induction tail using List.reverseRecOn with
  | nil =>
    intro PRE fuel _ _ _
    simp [walBytes_nil]
  | append_singleton t' r ih =>
    intro PRE fuel hwf hpg hbound
    have hpr : isPageOfB T r = true :=
      hpg r (List.mem_append_right t' (List.mem_singleton_self r))
    have hwr : r.wf = true :=
      hwf r (List.mem_append_right t' (List.mem_singleton_self r))
    cases r with
    | commit tx m => simp [isPageOfB] at hpr
    | page tx pid' d =>
      have htxT : tx = T := by
        simp only [isPageOfB, beq_iff_eq] at hpr
        exact hpr
      subst htxT
      obtain ⟨htx, hpid', hd⟩ := wf_page tx pid' d hwr
      have hw : walBytes (t' ++ [WalRecord.page tx pid' d]) =
          walBytes t' ++ recBytes (WalRecord.page tx pid' d) := by
        rw [walBytes_append, walBytes_cons, walBytes_nil, List.append_nil]
      have hrlen : (recBytes (WalRecord.page tx pid' d)).length = 4108 := by
        rw [recBytes_page_length, hd]
        rfl
      rw [hw, List.length_append, hrlen] at hbound ⊢
      rw [← List.append_assoc]
      rw [← Nat.add_assoc PRE.length (walBytes t').length 4108]
      have hAlen : (PRE ++ walBytes t').length = PRE.length + (walBytes t').length :=
        List.length_append PRE (walBytes t')
      cases fuel with
      | zero => omega
      | succ f =>
        have hP : PAGE_REC_SIZE = 4108 := rfl
        by_cases hL : PRE.length + (walBytes t').length = 0
        · rw [revScanAux_succ,
            if_pos (by omega : PRE.length + (walBytes t').length + 4108 ≤ PAGE_REC_SIZE)]
          rw [revScanAux_stop (f + 1) PRE PRE.length pid C (by omega)]
        · rw [revScanAux_succ,
            if_neg (by omega : ¬ PRE.length + (walBytes t').length + 4108 ≤ PAGE_REC_SIZE)]
          rw [show PRE.length + (walBytes t').length + 4108 - PAGE_REC_SIZE =
            PRE.length + (walBytes t').length from by omega]
          rw [if_neg (by
            rw [List.length_append, hAlen, hrlen]
            omega :
            ¬ ((PRE ++ walBytes t') ++ recBytes (WalRecord.page tx pid' d)).length ≤
              PRE.length + (walBytes t').length)]
          rw [show PRE.length + (walBytes t').length = (PRE ++ walBytes t').length from
            hAlen.symm]
          rw [readLE32_append_right (PRE ++ walBytes t') _ 4,
            readLE32_append_right (PRE ++ walBytes t') _ 8,
            show (PRE ++ walBytes t').length = (PRE ++ walBytes t').length + 0 from by omega,
            readLE32_append_right (PRE ++ walBytes t') _ 0]
          rw [show recBytes (WalRecord.page tx pid' d) =
            toLE4 1 ++ toLE4 tx ++ toLE4 pid' ++ d from rfl]
          rw [readLE32_hdr0, readLE32_hdr4, readLE32_hdr8]
          rw [if_neg (by
            rintro ⟨-, -, -, hmem⟩
            rw [Nat.mod_eq_of_lt htx] at hmem
            exact hT hmem)]
          rw [show (PRE ++ walBytes t').length + 0 = (PRE ++ walBytes t').length from by
            omega]
          rw [revScanAux_append (PRE ++ walBytes t') _ pid C f (PRE ++ walBytes t').length
            (le_refl _)]
          rw [revScanAux_fuel_irrel (PRE ++ walBytes t') pid C f (f + 1)
            (PRE ++ walBytes t').length (by rw [hAlen]; omega) (by rw [hAlen]; omega)]
          rw [hAlen]
          exact ih PRE (f + 1)
            (fun x hx => hwf x (List.mem_append_left _ hx))
            (fun x hx => hpg x (List.mem_append_left _ hx))
            (by omega)

end WalDb

namespace WalDb

theorem isGoodCommit_of_isCommit_false (T : Nat) (r : WalRecord)
    (h : isCommitOfB T r = false) : isGoodCommitOfB T r = false := by
  cases r with
  | page tx pid d => rfl
  | commit tx m =>
    simp only [isCommitOfB] at h
    simp [isGoodCommitOfB, h]

theorem hasGoodCommit_false_of (recs : List WalRecord) (T : Nat)
    (h : ∀ r ∈ recs, isGoodCommitOfB T r = false) : hasGoodCommit recs T = false := by
  rw [hasGoodCommit, List.any_eq_false]
  intro r hr
  simp [h r hr]

theorem recover_walBytes (recs : List WalRecord) (db : DataFile)
    (hwf : ∀ r ∈ recs, r.wf = true) :
    wal_recover (walBytes recs) db = recRecords recs [] db := by
  simp only [wal_recover]
  exact recoverAux_walBytes recs _ [] db hwf
    (by have := walBytes_length_ge recs; omega)

/-- Recovery over a log of whole records is unchanged by deleting the page
records of a transaction that has no correct-magic commit record. -/
theorem recover_filter_bytes (T : Nat) (recs : List WalRecord) (db : DataFile)
    (hwf : ∀ r ∈ recs, r.wf = true) (hngc : hasGoodCommit recs T = false) :
    wal_recover (walBytes recs) db =
      wal_recover (walBytes (recs.filter (fun r => !(isPageOfB T r)))) db := by
  rw [recover_walBytes recs db hwf,
    recover_walBytes _ db (fun r hr => hwf r (List.mem_of_mem_filter hr))]
  exact recRecords_filter T recs [] db hngc (List.not_mem_nil T)

/-- On a log of page records only, the snapshot scan finds nothing for any
snapshot and page id. -/
theorem wal_read_page_all_pages (recs : List WalRecord) (S pid : Nat)
    (hwf : ∀ r ∈ recs, r.wf = true) (hpg : ∀ r ∈ recs, isPageB r = true) :
    wal_read_page (walBytes recs) S pid = none := by
  show revScanAux (S + 1) (walBytes recs) S pid (visCommitted (walBytes recs) S) = none
  rw [show visCommitted (walBytes recs) S = [] from
    visScanAux_all_pages recs _ S [] hwf hpg (by have := walBytes_length_ge recs; omega)]
  exact revScanAux_empty _ _ _ _

/-- C5: crash atomicity of uncommitted transactions.  Conjuncts: (1)
write_page_int performs no WAL or data-file I/O (and neither do begin_write,
begin_read or checkpoint on the WAL); (2) commit_tx appends exactly the
committing transaction's dirty cached pages followed by that transaction's
correct-magic commit record - page records reach the WAL only during commit,
immediately before the commit marker; (3) recovery of a log containing no
commit record of transaction T is unchanged by deleting T's page records;
(4) a log of page records only (the WAL a crashed first transaction leaves)
recovers to the identity and is invisible to every snapshot read, so a
read on the reopened engine returns the data file's page; (5) in general: a
crash that leaves the page records of an uncommitted transaction T at the
tail of an arbitrary committed history not involving T produces a log that
recovers to the same data file as the history alone, whose snapshot scan at
the full-log end returns the same result as the history alone, and whose
reopened engine answers every read exactly as the engine reopened from the
history alone - T's staged pages are never observable. -/
theorem C5_crash_atomicity :
    (∀ (s : EngineState) (tx : WriteTxn) (pid : Nat) (d : Page) (s' : EngineState),
      write_page_int s tx pid d = some s' → s'.wal = s.wal ∧ s'.dataFile = s.dataFile) ∧
    (∀ s : EngineState, ((begin_write_txn s).2.wal = s.wal ∧ (begin_read_txn s).2.wal = s.wal) ∧
      (checkpoint_int s).wal = s.wal) ∧
    (∀ (s : EngineState) (tx : WriteTxn),
      (commit_tx s tx).wal =
        s.wal ++ (commitScan tx.tx_id s.cache).2 ++
          recBytes (.commit tx.tx_id WAL_MAGIC_COMMIT)) ∧
    (∀ (recs : List WalRecord) (T : Nat) (db : DataFile),
      (∀ r ∈ recs, r.wf = true) → (∀ r ∈ recs, isCommitOfB T r = false) →
      wal_recover (walBytes recs) db =
        wal_recover (walBytes (recs.filter (fun r => !(isPageOfB T r)))) db) ∧
    (∀ (recs : List WalRecord) (S pid : Nat) (db : DataFile),
      (∀ r ∈ recs, r.wf = true) → (∀ r ∈ recs, isPageB r = true) →
      wal_recover (walBytes recs) db = db ∧
      wal_read_page (walBytes recs) S pid = none ∧
      read_page_int (waldb_open db (walBytes recs)) ⟨S⟩ pid = db pid) ∧
    (∀ (hist tail : List WalRecord) (T pid : Nat) (db : DataFile),
      (∀ r ∈ hist, r.wf = true) → (∀ r ∈ tail, r.wf = true) →
      (∀ r ∈ tail, isPageOfB T r = true) →
      (∀ r ∈ hist, isPageOfB T r = false ∧ isCommitOfB T r = false) →
      wal_read_page (walBytes (hist ++ tail)) (walBytes (hist ++ tail)).length pid =
        wal_read_page (walBytes hist) (walBytes hist).length pid ∧
      wal_recover (walBytes (hist ++ tail)) db = wal_recover (walBytes hist) db ∧
      read_page_int (waldb_open db (walBytes (hist ++ tail)))
          ⟨(walBytes (hist ++ tail)).length⟩ pid =
        read_page_int (waldb_open db (walBytes hist)) ⟨(walBytes hist).length⟩ pid) := by
  refine ⟨?_, ?_, ?_, ?_, ?_, ?_⟩
  · intro s tx pid d s' h
    rw [write_page_int] at h
    cases hidx : s.cache.findIdx? (fun c => c.page_id == pid) with
    | some i =>
      rw [hidx] at h
      cases h
      exact ⟨rfl, rfl⟩
    | none =>
      rw [hidx] at h
      by_cases hfull : CACHE_SIZE ≤ s.cache.length
      · rw [if_pos hfull] at h; cases h
      · rw [if_neg hfull] at h
        cases h
        exact ⟨rfl, rfl⟩
  · intro s
    refine ⟨⟨rfl, ?_⟩, rfl⟩
    rw [begin_read_txn]
    by_cases h : s.readerSnapshots.length < MAX_READERS
    · rw [if_pos h]
    · rw [if_neg h]
  · intro s tx
    rfl
  · intro recs T db hwf hnc
    exact recover_filter_bytes T recs db hwf
      (hasGoodCommit_false_of recs T
        (fun r hr => isGoodCommit_of_isCommit_false T r (hnc r hr)))
  · intro recs S pid db hwf hpg
    have hrec : wal_recover (walBytes recs) db = db := by
      rw [recover_walBytes recs db hwf]
      exact recRecords_all_pages recs db hpg
    have hread := wal_read_page_all_pages recs S pid hwf hpg
    refine ⟨hrec, hread, ?_⟩
    simp only [read_page_int, waldb_open, find_cached_page, List.find?_nil, hread]
    rw [hrec]
    rfl
  · intro hist tail T pid db hhwf htwf htpg hhno
    have hallwf : ∀ r ∈ hist ++ tail, r.wf = true := by
      intro r hr
      rcases List.mem_append.mp hr with h | h
      · exact hhwf r h
      · exact htwf r h
    have hgc : hasGoodCommit hist T = false :=
      hasGoodCommit_false_of hist T
        (fun r hr => isGoodCommit_of_isCommit_false T r (hhno r hr).2)
    have hTC : T ∉ recCommittedAux hist [] :=
      recCommittedAux_not_mem T hist [] hgc (List.not_mem_nil T)
    have hlenfull := walBytes_length_ge (hist ++ tail)
    have hlenh := walBytes_length_ge hist
    have hWapp : walBytes (hist ++ tail) = walBytes hist ++ walBytes tail :=
      walBytes_append hist tail
    have hWlen : (walBytes (hist ++ tail)).length =
        (walBytes hist).length + (walBytes tail).length := by
      rw [hWapp, List.length_append]
    have hvisfull : visCommitted (walBytes (hist ++ tail))
        (walBytes (hist ++ tail)).length = recCommittedAux hist [] := by
      simp only [visCommitted]
      rw [visScanAux_full (hist ++ tail) _ _ [] hallwf (by omega) (by omega)]
      rw [recCommittedAux_append]
      exact recCommittedAux_pages tail
        (fun r hr => isPageB_of_isPageOfB T r (htpg r hr)) _
    have hvish : visCommitted (walBytes hist) (walBytes hist).length =
        recCommittedAux hist [] := by
      simp only [visCommitted]
      exact visScanAux_full hist _ _ [] hhwf (by omega) (by omega)
    have hread : wal_read_page (walBytes (hist ++ tail))
        (walBytes (hist ++ tail)).length pid =
        wal_read_page (walBytes hist) (walBytes hist).length pid := by
      simp only [wal_read_page]
      rw [hvisfull, hvish, hWapp, List.length_append]
      rw [revScan_tail_invisible T pid (recCommittedAux hist []) hTC tail
        (walBytes hist) ((walBytes hist).length + (walBytes tail).length + 1)
        htwf htpg (by omega)]
      exact revScanAux_fuel_irrel (walBytes hist) pid (recCommittedAux hist [])
        ((walBytes hist).length + (walBytes tail).length + 1)
        ((walBytes hist).length + 1) (walBytes hist).length (by omega) (by omega)
    have hngcall : hasGoodCommit (hist ++ tail) T = false := by
      apply hasGoodCommit_false_of
      intro r hr
      rcases List.mem_append.mp hr with h | h
      · exact isGoodCommit_of_isCommit_false T r (hhno r h).2
      · have hp := htpg r h
        cases r with
        | page tx pd d => rfl
        | commit tx m => simp [isPageOfB] at hp
    have hfilter : (hist ++ tail).filter (fun r => !(isPageOfB T r)) = hist := by
      rw [List.filter_append]
      rw [List.filter_eq_self.mpr (fun r hr => by rw [(hhno r hr).1]; rfl)]
      rw [List.filter_eq_nil.mpr (fun r hr => by simp [htpg r hr]), List.append_nil]
    have hrec : wal_recover (walBytes (hist ++ tail)) db =
        wal_recover (walBytes hist) db := by
      rw [recover_filter_bytes T (hist ++ tail) db hallwf hngcall, hfilter]
    refine ⟨hread, hrec, ?_⟩
    simp only [read_page_int, waldb_open, find_cached_page, List.find?_nil]
    rw [hread, hrec]

/-- C5 witness: the crash scenario S2 - transaction 1 staged page 0 with
payload 0xAA, the log holds only that page record, no commit marker;
recovery writes nothing, the snapshot scan at the log end (4108) sees
nothing, and a read on the reopened engine returns the data file's page.
Second part: the general conjunct at a nonempty committed history -
transaction 1 committed page 0 (0x01 payload), then transaction 3 crashed
after staging page 0 with 0xAA; a read of page 0 on the engine reopened
from the crashed log equals the read on the engine reopened from the
history alone. -/
theorem C5_crash_atomicity_witness :
    (wal_recover (walBytes [WalRecord.page 1 0 aaPage]) dbZero = dbZero ∧
     wal_read_page (walBytes [WalRecord.page 1 0 aaPage]) 4108 0 = none ∧
     read_page_int (waldb_open dbZero (walBytes [WalRecord.page 1 0 aaPage])) ⟨4108⟩ 0 =
       dbZero 0) ∧
    read_page_int
        (waldb_open dbZero
          (walBytes ([WalRecord.page 1 0 onesPage, WalRecord.commit 1 WAL_MAGIC_COMMIT] ++
            [WalRecord.page 3 0 aaPage])))
        ⟨(walBytes ([WalRecord.page 1 0 onesPage, WalRecord.commit 1 WAL_MAGIC_COMMIT] ++
            [WalRecord.page 3 0 aaPage])).length⟩ 0 =
      read_page_int
        (waldb_open dbZero
          (walBytes [WalRecord.page 1 0 onesPage, WalRecord.commit 1 WAL_MAGIC_COMMIT]))
        ⟨(walBytes [WalRecord.page 1 0 onesPage,
            WalRecord.commit 1 WAL_MAGIC_COMMIT]).length⟩ 0 := by
  constructor
  · refine C5_crash_atomicity.2.2.2.2.1 [WalRecord.page 1 0 aaPage] 4108 0 dbZero
      torn_recs_wf ?_
    intro r hr
    rw [List.mem_singleton] at hr
    subst hr
    rfl
  · refine (C5_crash_atomicity.2.2.2.2.2
      [WalRecord.page 1 0 onesPage, WalRecord.commit 1 WAL_MAGIC_COMMIT]
      [WalRecord.page 3 0 aaPage] 3 0 dbZero s1_recs_wf ?_ ?_ ?_).2.2
    · intro r hr
      rw [List.mem_singleton] at hr
      subst hr
      exact wf_page_intro 3 0 aaPage (by norm_num [U32]) (by norm_num [U32]) aaPage_length
    · intro r hr
      rw [List.mem_singleton] at hr
      subst hr
      rfl
    · intro r hr
      rcases List.mem_cons.mp hr with h | h
      · subst h
        exact ⟨rfl, rfl⟩
      · rcases List.mem_cons.mp h with h2 | h2
        · subst h2
          exact ⟨rfl, rfl⟩
        · exact absurd h2 (List.not_mem_nil r)

/-- C6: a commit record whose magic differs from 0xC0DECAFE leaves its
transaction uncommitted everywhere: it never enters the committed set of the
recovery scan or of the snapshot-visibility forward pass; recovery is
unchanged by deleting that transaction's page records; and any page image
the reverse scan does return is the data slice of a chunk whose parsed tx_id
is in the forward pass's committed set, hence not that transaction. -/
theorem C6_bad_magic_ignored (recs : List WalRecord) (T : Nat)
    (hwf : ∀ r ∈ recs, r.wf = true)
    (hbad : ∀ r ∈ recs, isGoodCommitOfB T r = false) :
    hasGoodCommit recs T = false ∧
    T ∉ recCommitted recs ∧
    (∀ S, T ∉ visCommitted (walBytes recs) S) ∧
    (∀ db, wal_recover (walBytes recs) db =
      wal_recover (walBytes (recs.filter (fun r => !(isPageOfB T r)))) db) ∧
    (∀ S pid d, wal_read_page (walBytes recs) S pid = some d →
      ∃ p, readLE32 (walBytes recs) p = 1 ∧ readLE32 (walBytes recs) (p + 8) = pid ∧
        readLE32 (walBytes recs) (p + 4) ∈ visCommitted (walBytes recs) S ∧
        readLE32 (walBytes recs) (p + 4) ≠ T ∧
        d = ((walBytes recs).drop (p + 12)).take PAGE_SIZE) := by
  have hngc : hasGoodCommit recs T = false := hasGoodCommit_false_of recs T hbad
  have hvis : ∀ S, T ∉ visCommitted (walBytes recs) S := by
    intro S
    exact visScanAux_not_mem T recs _ S [] hwf
      (by have := walBytes_length_ge recs; omega) hngc (List.not_mem_nil T)
  refine ⟨hngc, ?_, hvis, ?_, ?_⟩
  · exact recCommittedAux_not_mem T recs [] hngc (List.not_mem_nil T)
  · intro db
    exact recover_filter_bytes T recs db hwf hngc
  · intro S pid d h
    obtain ⟨p, h1, h2, h3, h4, h5⟩ :=
      revScanAux_inv (S + 1) (walBytes recs) S pid (visCommitted (walBytes recs) S) d h
    refine ⟨p, h1, h2, h4, ?_, h5⟩
    intro he
    exact hvis S (he ▸ h4)

/-- C6 witness: the two-record log "page record of transaction 1, then a
commit record of transaction 1 with magic 0": the bad-magic commit leaves
transaction 1 out of both committed sets. -/
theorem C6_bad_magic_ignored_witness :
    hasGoodCommit [WalRecord.page 1 0 zeroPage, WalRecord.commit 1 0] 1 = false ∧
    1 ∉ recCommitted [WalRecord.page 1 0 zeroPage, WalRecord.commit 1 0] ∧
    1 ∉ visCommitted (walBytes [WalRecord.page 1 0 zeroPage, WalRecord.commit 1 0]) 4120 := by
  have hwf : ∀ r ∈ [WalRecord.page 1 0 zeroPage, WalRecord.commit 1 0], r.wf = true := by
    intro r hr
    rcases List.mem_cons.mp hr with h | h
    · subst h
      exact wf_page_intro 1 0 zeroPage (by norm_num [U32]) (by norm_num [U32])
        (by simp [zeroPage])
    · rw [List.mem_singleton] at h
      subst h
      exact wf_commit_intro 1 0 (by norm_num [U32]) (by norm_num [U32])
  have hbad : ∀ r ∈ [WalRecord.page 1 0 zeroPage, WalRecord.commit 1 0],
      isGoodCommitOfB 1 r = false := by
    intro r hr
    rcases List.mem_cons.mp hr with h | h
    · subst h; rfl
    · rw [List.mem_singleton] at h
      subst h
      simp [isGoodCommitOfB, WAL_MAGIC_COMMIT]
  have h := C6_bad_magic_ignored [WalRecord.page 1 0 zeroPage, WalRecord.commit 1 0] 1
    hwf hbad
  exact ⟨h.1, h.2.1, h.2.2.1 4120⟩

end WalDb

namespace HashJoin

theorem tableLookup_nil (k : String) : tableLookup [] k = none := rfl

theorem tableLookup_cons_true (e : String × List Row) (es : Table) (k : String)
    (h : (e.1 == k) = true) : tableLookup (e :: es) k = some e.2 := by
  simp [tableLookup, List.find?_cons, h]

theorem tableLookup_cons_false (e : String × List Row) (es : Table) (k : String)
    (h : (e.1 == k) = false) : tableLookup (e :: es) k = tableLookup es k := by
  simp [tableLookup, List.find?_cons, h]

theorem tableLookup_insert_same (t : Table) (k : String) (r : Row) :
    tableLookup (tableInsert t k r) k = some ((tableLookup t k).getD [] ++ [r]) := by
  induction t with
  | nil =>
    rw [show tableInsert [] k r = [(k, [r])] from rfl,
      tableLookup_cons_true (k, [r]) [] k (beq_iff_eq.mpr rfl), tableLookup_nil]
    rfl
  | cons e es ih =>
    by_cases he : e.1 = k
    · have hb : (e.1 == k) = true := beq_iff_eq.mpr he
      simp only [tableInsert, hb, if_true]
      rw [tableLookup_cons_true (e.1, e.2 ++ [r]) es k hb,
        tableLookup_cons_true e es k hb]
      rfl
    · have hb : (e.1 == k) = false := beq_eq_false_iff_ne.mpr he
      simp only [tableInsert, hb, Bool.false_eq_true, if_false]
      rw [tableLookup_cons_false e _ k hb, tableLookup_cons_false e es k hb, ih]

theorem tableLookup_insert_ne (t : Table) (k k' : String) (r : Row) (h : k' ≠ k) :
    tableLookup (tableInsert t k r) k' = tableLookup t k' := by
  induction t with
  | nil =>
    rw [show tableInsert [] k r = [(k, [r])] from rfl,
      tableLookup_cons_false (k, [r]) [] k' (beq_eq_false_iff_ne.mpr (Ne.symm h))]
  | cons e es ih =>
    by_cases he : e.1 = k
    · have hb : (e.1 == k) = true := beq_iff_eq.mpr he
      have hb' : (e.1 == k') = false := by
        refine beq_eq_false_iff_ne.mpr ?_
        rw [he]
        exact Ne.symm h
      simp only [tableInsert, hb, if_true]
      rw [tableLookup_cons_false (e.1, e.2 ++ [r]) es k' hb',
        tableLookup_cons_false e es k' hb']
    · have hb : (e.1 == k) = false := beq_eq_false_iff_ne.mpr he
      simp only [tableInsert, hb, Bool.false_eq_true, if_false]
      by_cases he' : e.1 = k'
      · have hb' : (e.1 == k') = true := beq_iff_eq.mpr he'
        rw [tableLookup_cons_true e _ k' hb', tableLookup_cons_true e es k' hb']
      · have hb' : (e.1 == k') = false := beq_eq_false_iff_ne.mpr he'
        rw [tableLookup_cons_false e _ k' hb', tableLookup_cons_false e es k' hb', ih]

theorem tableOfRows_lookup (ikey k : String) :
    ∀ (rows : List (Option Row)) (t : Table),
      tableLookup (tableOfRows ikey rows t) k =
        match tableLookup t k with
        | some g => some (g ++ rowsWithKey ikey k rows)
        | none =>
          if rowsWithKey ikey k rows = [] then none
          else some (rowsWithKey ikey k rows) := by
  intro rows
  induction rows with
  | nil =>
    intro t
    cases h : tableLookup t k with
    | some g => simp [tableOfRows, rowsWithKey, h]
    | none => simp [tableOfRows, rowsWithKey, h]
  | cons row? rest ih =>
    intro t
    cases row? with
    | none => simpa [tableOfRows, rowsWithKey] using ih t
    | some r =>
      cases hk : rowGet r ikey with
      | none => simpa [tableOfRows, rowsWithKey, hk] using ih t
      | some k' =>
        by_cases hkk : k' = k
        · subst hkk
          simp only [tableOfRows, hk]
          rw [ih (tableInsert t k' r)]
          rw [tableLookup_insert_same]
          simp only [rowsWithKey, hk, if_pos rfl]
          cases h : tableLookup t k' with
          | some g => simp [h]
          | none => simp [h]
        · simp only [tableOfRows, hk]
          rw [ih (tableInsert t k' r)]
          rw [tableLookup_insert_ne t k' k r (Ne.symm hkk)]
          simp only [rowsWithKey, hk, if_neg hkk]

theorem tableOfRows_lookup_nil (inner : List (Option Row)) (ikey k : String) :
    tableLookup (tableOfRows ikey inner []) k =
      if rowsWithKey ikey k inner = [] then none
      else some (rowsWithKey ikey k inner) := by
  rw [tableOfRows_lookup ikey k inner [], tableLookup_nil]

theorem rowsWithKey_nil_iff (ikey k : String) :
    ∀ inner : List (Option Row),
      rowsWithKey ikey k inner = [] ↔ k ∉ innerKeys inner ikey := by
  intro inner
  induction inner with
  | nil => simp [rowsWithKey, innerKeys]
  | cons row? rest ih =>
    cases row? with
    | none => simpa [rowsWithKey, innerKeys] using ih
    | some r =>
      cases hk : rowGet r ikey with
      | none =>
        simp only [rowsWithKey, hk]
        rw [ih]
        simp [innerKeys, hk]
      | some k' =>
        by_cases hkk : k' = k
        · subst hkk
          simp [rowsWithKey, hk, innerKeys]
        · simp only [rowsWithKey, hk, if_neg hkk]
          rw [ih]
          simp [innerKeys, hk, Ne.symm hkk]

theorem innerKeys_cons_some (ikey k' : String) (r : Row) (rest : List (Option Row))
    (hk : rowGet r ikey = some k') :
    innerKeys (some r :: rest) ikey = k' :: innerKeys rest ikey := by
  simp [innerKeys, hk]

theorem rowsWithKey_singleton (ikey k : String) :
    ∀ inner : List (Option Row), (innerKeys inner ikey).Nodup →
      rowsWithKey ikey k inner = [] ∨
        rowsWithKey ikey k inner = [(firstInnerRowWithKey inner ikey k).getD []] ∧
          (firstInnerRowWithKey inner ikey k).isSome = true := by
  intro inner
  induction inner with
  | nil => intro _; exact Or.inl rfl
  | cons row? rest ih =>
    intro hu
    cases row? with
    | none =>
      have hu' : (innerKeys rest ikey).Nodup := by simpa [innerKeys] using hu
      rcases ih hu' with h | h
      · exact Or.inl (by simpa [rowsWithKey] using h)
      · refine Or.inr ?_
        simpa [rowsWithKey, firstInnerRowWithKey] using h
    | some r =>
      cases hk : rowGet r ikey with
      | none =>
        have hu' : (innerKeys rest ikey).Nodup := by simpa [innerKeys, hk] using hu
        rcases ih hu' with h | h
        · exact Or.inl (by simpa [rowsWithKey, hk] using h)
        · refine Or.inr ?_
          simpa [rowsWithKey, firstInnerRowWithKey, hk] using h
      | some k' =>
        rw [innerKeys_cons_some ikey k' r rest hk] at hu
        have hu' : (innerKeys rest ikey).Nodup := (List.nodup_cons.mp hu).2
        have hnotin : k' ∉ innerKeys rest ikey := (List.nodup_cons.mp hu).1
        by_cases hkk : k' = k
        · subst hkk
          have hrest : rowsWithKey ikey k' rest = [] :=
            (rowsWithKey_nil_iff ikey k' rest).mpr hnotin
          refine Or.inr ?_
          simp [rowsWithKey, hk, hrest, firstInnerRowWithKey]
        · have hstep : rowsWithKey ikey k (some r :: rest) = rowsWithKey ikey k rest := by
            simp [rowsWithKey, hk, hkk]
          have hfirst : firstInnerRowWithKey (some r :: rest) ikey k =
              firstInnerRowWithKey rest ikey k := by
            simp [firstInnerRowWithKey, hstep]
          rcases ih hu' with h | h
          · exact Or.inl (by rw [hstep]; exact h)
          · exact Or.inr (by rw [hstep, hfirst]; exact h)

/-- Under pairwise-distinct inner keys, the built table's group for a key is
exactly the first (and only) inner row with that key. -/
theorem lookup_tableOfRows_first (inner : List (Option Row)) (ikey : String)
    (hu : (innerKeys inner ikey).Nodup) (k : String) :
    tableLookup (tableOfRows ikey inner []) k =
      (firstInnerRowWithKey inner ikey k).map (fun r => [r]) := by
  rw [tableOfRows_lookup_nil]
  rcases rowsWithKey_singleton ikey k inner hu with h | ⟨h, hs⟩
  · rw [if_pos h]
    have : firstInnerRowWithKey inner ikey k = none := by
      simp [firstInnerRowWithKey, h]
    rw [this]
    rfl
  · rw [if_neg (by simp [h])]
    cases hf : firstInnerRowWithKey inner ikey k with
    | none => rw [hf] at hs; simp at hs
    | some r => rw [hf] at h; simp at h; rw [h]; rfl

theorem firstInner_isSome_iff (inner : List (Option Row)) (ikey k : String) :
    (firstInnerRowWithKey inner ikey k).isSome = true ↔ k ∈ innerKeys inner ikey := by
  constructor
  · intro h
    by_contra hn
    have := (rowsWithKey_nil_iff ikey k inner).mpr hn
    simp [firstInnerRowWithKey, this] at h
  · intro h
    cases hr : rowsWithKey ikey k inner with
    | nil => exact absurd ((rowsWithKey_nil_iff ikey k inner).mp hr) (by simp [h])
    | cons r rs => simp [firstInnerRowWithKey, hr]

end HashJoin

namespace HashJoin

theorem joinMatches_nil (inner : List (Option Row)) (ikey okey : String) :
    joinMatches inner [] ikey okey = [] := rfl

theorem joinMatches_cons_none (inner rest : List (Option Row)) (ikey okey : String) :
    joinMatches inner (none :: rest) ikey okey = joinMatches inner rest ikey okey := by
  simp [joinMatches]

theorem joinMatches_cons_nokey (inner rest : List (Option Row)) (ikey okey : String)
    (o : Row) (hko : rowGet o okey = none) :
    joinMatches inner (some o :: rest) ikey okey = joinMatches inner rest ikey okey := by
  simp [joinMatches, hko]

theorem joinMatches_cons_nomatch (inner rest : List (Option Row)) (ikey okey : String)
    (o : Row) (k : String) (hko : rowGet o okey = some k)
    (hf : firstInnerRowWithKey inner ikey k = none) :
    joinMatches inner (some o :: rest) ikey okey = joinMatches inner rest ikey okey := by
  simp [joinMatches, hko, hf]

theorem joinMatches_cons_match (inner rest : List (Option Row)) (ikey okey : String)
    (o r : Row) (k : String) (hko : rowGet o okey = some k)
    (hf : firstInnerRowWithKey inner ikey k = some r) :
    joinMatches inner (some o :: rest) ikey okey =
      dictMerge r o :: joinMatches inner rest ikey okey := by
  simp [joinMatches, hko, hf]

/-- The probe loop, run against the table built from inner rows with
pairwise-distinct keys and enough output space for every match, emits
exactly the specification-level match list and counts its length. -/
theorem probeAux_spec (inner : List (Option Row)) (ikey okey : String)
    (size : Row → Nat) (cap : Nat) (hu : (innerKeys inner ikey).Nodup) :
    ∀ (outs : List (Option Row)) (pos cnt : Nat) (out : List Row),
      pos + ((joinMatches inner outs ikey okey).map size).sum ≤ cap →
      probeAux (tableOfRows ikey inner []) okey size cap outs pos cnt out =
        (pos + ((joinMatches inner outs ikey okey).map size).sum,
          cnt + (joinMatches inner outs ikey okey).length,
          out ++ joinMatches inner outs ikey okey) := by
  intro outs
  induction outs with
  | nil =>
    intro pos cnt out _
    simp [probeAux, joinMatches_nil]
  | cons row? rest ih =>
    intro pos cnt out h
    cases row? with
    | none =>
      rw [joinMatches_cons_none] at h ⊢
      simp only [probeAux]
      exact ih pos cnt out h
    | some o =>
      cases hko : rowGet o okey with
      | none =>
        rw [joinMatches_cons_nokey inner rest ikey okey o hko] at h ⊢
        simp only [probeAux, hko]
        exact ih pos cnt out h
      | some k =>
        cases hf : firstInnerRowWithKey inner ikey k with
        | none =>
          rw [joinMatches_cons_nomatch inner rest ikey okey o k hko hf] at h ⊢
          simp only [probeAux, hko, lookup_tableOfRows_first inner ikey hu k, hf,
            Option.map_none']
          exact ih pos cnt out h
        | some r =>
          rw [joinMatches_cons_match inner rest ikey okey o r k hko hf] at h ⊢
          simp only [List.map_cons, List.sum_cons, List.length_cons] at h ⊢
          have hfit : pos + size (dictMerge r o) ≤ cap := by omega
          have hemit : emitGroup size cap o [r] pos cnt out =
              (pos + size (dictMerge r o), cnt + 1, out ++ [dictMerge r o]) := by
            simp only [emitGroup]
            rw [if_pos hfit]
          simp only [probeAux, hko, lookup_tableOfRows_first inner ikey hu k, hf,
            Option.map_some', hemit]
          rw [ih (pos + size (dictMerge r o)) (cnt + 1) (out ++ [dictMerge r o])
            (by omega)]
          simp only [Prod.mk.injEq]
          refine ⟨by omega, by omega, by simp⟩

/-- Inserting under a key already stored keeps the number of stored keys. -/
theorem tableInsert_length_isSome (t : Table) (k : String) (r : Row)
    (h : (tableLookup t k).isSome = true) :
    (tableInsert t k r).length = t.length := by
  induction t with
  | nil => simp [tableLookup_nil] at h
  | cons e es ih =>
    by_cases he : e.1 = k
    · have hb : (e.1 == k) = true := beq_iff_eq.mpr he
      simp only [tableInsert, hb, if_true, List.length_cons]
    · have hb : (e.1 == k) = false := beq_eq_false_iff_ne.mpr he
      rw [tableLookup_cons_false e es k hb] at h
      simp only [tableInsert, hb, Bool.false_eq_true, if_false, List.length_cons, ih h]

/-- Inserting under a fresh key stores one more key. -/
theorem tableInsert_length_none (t : Table) (k : String) (r : Row)
    (h : tableLookup t k = none) :
    (tableInsert t k r).length = t.length + 1 := by
  induction t with
  | nil => rfl
  | cons e es ih =>
    by_cases he : e.1 = k
    · have hb : (e.1 == k) = true := beq_iff_eq.mpr he
      rw [tableLookup_cons_true e es k hb] at h
      exact absurd h (Option.some_ne_none e.2)
    · have hb : (e.1 == k) = false := beq_eq_false_iff_ne.mpr he
      rw [tableLookup_cons_false e es k hb] at h
      simp only [tableInsert, hb, Bool.false_eq_true, if_false, List.length_cons, ih h]

/-- While the pending distinct keys fit beside the stored ones, the build
loop never hits the full-table abort and computes the key-to-group map. -/
theorem buildTableGo_success (ikey : String) :
    ∀ (rows : List (Option Row)) (t : Table),
      (innerKeys rows ikey).length + t.length ≤ HASH_SIZE →
      buildTableGo ikey rows t = some (tableOfRows ikey rows t) := by
  intro rows
  induction rows with
  | nil => intro t _; rfl
  | cons row? rest ih =>
    intro t hb
    cases row? with
    | none =>
      simp only [buildTableGo, tableOfRows]
      exact ih t (by simpa [innerKeys] using hb)
    | some r =>
      cases hk : rowGet r ikey with
      | none =>
        simp only [buildTableGo, tableOfRows, hk]
        exact ih t (by simpa [innerKeys, hk] using hb)
      | some k =>
        rw [innerKeys_cons_some ikey k r rest hk, List.length_cons] at hb
        simp only [buildTableGo, tableOfRows, hk]
        by_cases hs : (tableLookup t k).isSome = true
        · rw [if_pos hs]
          exact ih (tableInsert t k r)
            (by rw [tableInsert_length_isSome t k r hs]; omega)
        · have hnone : tableLookup t k = none := by
            cases hl : tableLookup t k with
            | none => rfl
            | some g => rw [hl] at hs; simp at hs
          rw [if_neg hs, if_neg (by omega : ¬ HASH_SIZE ≤ t.length)]
          exact ih (tableInsert t k r)
            (by rw [tableInsert_length_none t k r hnone]; omega)

/-- When the pending rows carry more distinct keys than fit beside the
stored ones (all pending keys fresh), the build loop aborts: once HASH_SIZE
distinct keys are stored, the probe for the next fresh key wraps around to
its start slot and the C jumps to cleanup. -/
theorem buildTableGo_abort (ikey : String) :
    ∀ (rows : List (Option Row)) (t : Table),
      (innerKeys rows ikey).Nodup →
      (∀ k ∈ innerKeys rows ikey, tableLookup t k = none) →
      t.length ≤ HASH_SIZE →
      HASH_SIZE < (innerKeys rows ikey).length + t.length →
      buildTableGo ikey rows t = none := by
  intro rows
  induction rows with
  | nil =>
    intro t _ _ hinv hgt
    rw [show innerKeys [] ikey = [] from rfl, List.length_nil] at hgt
    omega
  | cons row? rest ih =>
    intro t hnd habs hinv hgt
    cases row? with
    | none =>
      simp only [buildTableGo]
      exact ih t (by simpa [innerKeys] using hnd)
        (by intro k hk; exact habs k (by simpa [innerKeys] using hk)) hinv
        (by simpa [innerKeys] using hgt)
    | some r =>
      cases hk : rowGet r ikey with
      | none =>
        simp only [buildTableGo, hk]
        exact ih t (by simpa [innerKeys, hk] using hnd)
          (by intro k hkk; exact habs k (by simpa [innerKeys, hk] using hkk)) hinv
          (by simpa [innerKeys, hk] using hgt)
      | some k =>
        rw [innerKeys_cons_some ikey k r rest hk] at hnd habs hgt
        rw [List.length_cons] at hgt
        have hnone : tableLookup t k = none := habs k (List.mem_cons_self k _)
        have hns : ¬ (tableLookup t k).isSome = true := by
          rw [hnone]
          simp
        simp only [buildTableGo, hk]
        rw [if_neg hns]
        by_cases hfull : HASH_SIZE ≤ t.length
        · rw [if_pos hfull]
        · rw [if_neg hfull]
          have hknotin : k ∉ innerKeys rest ikey := (List.nodup_cons.mp hnd).1
          refine ih (tableInsert t k r) (List.nodup_cons.mp hnd).2 ?_ ?_ ?_
          · intro k2 hk2
            rw [tableLookup_insert_ne t k k2 r
              (fun he => hknotin (he ▸ hk2))]
            exact habs k2 (List.mem_cons_of_mem k hk2)
          · rw [tableInsert_length_none t k r hnone]
            omega
          · rw [tableInsert_length_none t k r hnone]
            omega

theorem rowGet_capRow (i : Nat) : rowGet (capRow i) "k" = some (capKey i) := by
  simp [rowGet, capRow]

theorem innerKeys_capRows :
    ∀ l : List Nat,
      innerKeys (l.map (fun i => some (capRow i))) "k" = l.map capKey := by
  intro l
  induction l with
  | nil => rfl
  | cons i is ih =>
    rw [List.map_cons,
      innerKeys_cons_some "k" (capKey i) (capRow i) _ (rowGet_capRow i),
      List.map_cons, ih]

theorem capKey_inj : Function.Injective capKey := by
  intro i j h
  have hd : List.replicate i (Char.ofNat 97) = List.replicate j (Char.ofNat 97) :=
    congrArg String.data h
  have hl := congrArg List.length hd
  simpa using hl

theorem innerKeys_capInner :
    innerKeys capInner "k" = (List.range (HASH_SIZE + 1)).map capKey := by
  rw [capInner]
  exact innerKeys_capRows _

theorem capInner_keys_nodup : (innerKeys capInner "k").Nodup := by
  rw [innerKeys_capInner]
  exact (List.nodup_range _).map capKey_inj

theorem buildTable_capInner : buildTable capInner "k" = none := by
  rw [buildTable]
  refine buildTableGo_abort "k" capInner [] capInner_keys_nodup
    (fun k _ => rfl) (by simp [HASH_SIZE]) ?_
  rw [innerKeys_capInner, List.length_map, List.length_range, List.length_nil]
  omega

theorem rowsWithKey_cons_match (ikey k : String) (r : Row) (rest : List (Option Row))
    (hk : rowGet r ikey = some k) :
    rowsWithKey ikey k (some r :: rest) = r :: rowsWithKey ikey k rest := by
  simp [rowsWithKey, hk]

theorem firstInner_cons_match (ikey k : String) (r : Row) (rest : List (Option Row))
    (hk : rowGet r ikey = some k) :
    firstInnerRowWithKey (some r :: rest) ikey k = some r := by
  rw [firstInnerRowWithKey, rowsWithKey_cons_match ikey k r rest hk]

theorem firstInner_capInner :
    firstInnerRowWithKey capInner "k" (capKey 0) = some (capRow 0) := by
  have h : capInner = some (capRow 0) ::
      (List.map Nat.succ (List.range HASH_SIZE)).map (fun i => some (capRow i)) := by
    rw [capInner, List.range_succ_eq_map, List.map_cons]
  rw [h]
  exact firstInner_cons_match "k" (capKey 0) (capRow 0) _ (rowGet_capRow 0)

/-- A build-phase abort short-circuits hash_join: cleanup runs before the
probe phase, so the call returns count 0 and an untouched output buffer. -/
theorem hash_join_none (inner outer : List (Option Row)) (ikey okey : String)
    (size : Row → Nat) (cap : Nat) (h : buildTable inner ikey = none) :
    hash_join inner outer ikey okey size cap = (0, []) := by
  rw [hash_join, h]

theorem joinMatches_cap : joinMatches capInner capOuter "k" "k" = [capRow 0] := by
  rw [show capOuter = [some (capRow 0)] from rfl,
    joinMatches_cons_match capInner [] "k" "k" (capRow 0) (capRow 0) (capKey 0)
      (rowGet_capRow 0) firstInner_capInner, joinMatches_nil,
    show dictMerge (capRow 0) (capRow 0) = capRow 0 from by decide]

/-- C9 counterexample: 4097 well-formed inner rows with pairwise-distinct
keys and one outer row matching the first inner row, with an output buffer
far larger than the single expected result.  The contract demands one
emitted row (the merge of the first inner row with the outer row), but the
build phase stores only HASH_SIZE = 4096 distinct keys: on the 4097th the
probe wraps around, hash_join jumps to cleanup before the probe phase and
returns 0 with an empty output buffer. -/
theorem C9_counterexample :
    (innerKeys capInner "k").Nodup ∧
    joinMatches capInner capOuter "k" "k" = [capRow 0] ∧
    joinSizeTotal capInner capOuter "k" "k" (fun _ => 1) = 1 ∧
    hash_join capInner capOuter "k" "k" (fun _ => 1) 1000000 = (0, []) := by
  refine ⟨capInner_keys_nodup, joinMatches_cap, ?_, ?_⟩
  · rw [joinSizeTotal, joinMatches_cap]
    rfl
  · exact hash_join_none capInner capOuter "k" "k" (fun _ => 1) 1000000
      buildTable_capInner

/-- C9 (amended): the hash-join contract restricted to inner sides whose
stored keys fit in the hash table.  With pairwise-distinct inner keys, at
most HASH_SIZE = 4096 of them, and an output buffer large enough for all
results: the returned count is the number of outer rows whose stringified
key equals some inner row's key, the emitted rows are, in outer order, the
field-wise merge of the matching inner row then the outer row (the outer
value winning on shared fields, as dictMerge encodes); a key has a matching
inner row exactly when it occurs among the inner keys; and unparsable rows
or rows missing the key field - on either side - are skipped without
affecting the rest of the join.  (Without the HASH_SIZE bound the contract
fails: see the counterexample.) -/
theorem C9_hash_join_amended (inner outer : List (Option Row)) (ikey okey : String)
    (size : Row → Nat) (cap : Nat)
    (hu : (innerKeys inner ikey).Nodup)
    (hsz : (innerKeys inner ikey).length ≤ HASH_SIZE)
    (hcap : joinSizeTotal inner outer ikey okey size ≤ cap) :
    (hash_join inner outer ikey okey size cap).1 =
        (joinMatches inner outer ikey okey).length ∧
    (hash_join inner outer ikey okey size cap).2 = joinMatches inner outer ikey okey ∧
    (∀ k, (firstInnerRowWithKey inner ikey k).isSome = true ↔ k ∈ innerKeys inner ikey) ∧
    hash_join inner (none :: outer) ikey okey size cap =
      hash_join inner outer ikey okey size cap ∧
    (∀ o : Row, rowGet o okey = none →
      hash_join inner (some o :: outer) ikey okey size cap =
        hash_join inner outer ikey okey size cap) ∧
    hash_join (none :: inner) outer ikey okey size cap =
      hash_join inner outer ikey okey size cap ∧
    (∀ r : Row, rowGet r ikey = none →
      hash_join (some r :: inner) outer ikey okey size cap =
        hash_join inner outer ikey okey size cap) := by
  have hb : buildTable inner ikey = some (tableOfRows ikey inner []) := by
    rw [buildTable]
    exact buildTableGo_success ikey inner []
      (by rw [List.length_nil]; omega)
  have hp := probeAux_spec inner ikey okey size cap hu outer 0 0 []
    (by rw [Nat.zero_add]; exact hcap)
  refine ⟨?_, ?_, fun k => firstInner_isSome_iff inner ikey k, ?_, ?_, ?_, ?_⟩
  · simp only [hash_join, hb, hp]
    omega
  · simp only [hash_join, hb, hp]
    simp
  · simp only [hash_join, hb, probeAux]
  · intro o ho
    simp only [hash_join, hb, probeAux, ho]
  · have hb6 : buildTable (none :: inner) ikey = buildTable inner ikey := rfl
    simp only [hash_join, hb6]
  · intro r hr
    have hb7 : buildTable (some r :: inner) ikey = buildTable inner ikey := by
      simp only [buildTable, buildTableGo, hr]
    simp only [hash_join, hb7]

/-- C9 witness: scenario S6 of the spec - inner rows with keys 1 and 2
(well within the 4096-key capacity), outer rows with keys 1, 2 and 3: two
rows are emitted, each the merge of the matching inner row and its outer
row. -/
theorem C9_hash_join_amended_witness :
    (hash_join
        [some [("id", "1"), ("n", "A")], some [("id", "2"), ("n", "B")]]
        [some [("id", "1"), ("v", "10")], some [("id", "2"), ("v", "20")],
          some [("id", "3"), ("v", "30")]]
        "id" "id" (fun _ => 1) 10).1 =
      (joinMatches
        [some [("id", "1"), ("n", "A")], some [("id", "2"), ("n", "B")]]
        [some [("id", "1"), ("v", "10")], some [("id", "2"), ("v", "20")],
          some [("id", "3"), ("v", "30")]] "id" "id").length ∧
    (joinMatches
        [some [("id", "1"), ("n", "A")], some [("id", "2"), ("n", "B")]]
        [some [("id", "1"), ("v", "10")], some [("id", "2"), ("v", "20")],
          some [("id", "3"), ("v", "30")]] "id" "id").length = 2 ∧
    joinMatches
        [some [("id", "1"), ("n", "A")], some [("id", "2"), ("n", "B")]]
        [some [("id", "1"), ("v", "10")], some [("id", "2"), ("v", "20")],
          some [("id", "3"), ("v", "30")]] "id" "id" =
      [[("id", "1"), ("n", "A"), ("v", "10")], [("id", "2"), ("n", "B"), ("v", "20")]] :=
  ⟨(C9_hash_join_amended
      [some [("id", "1"), ("n", "A")], some [("id", "2"), ("n", "B")]]
      [some [("id", "1"), ("v", "10")], some [("id", "2"), ("v", "20")],
        some [("id", "3"), ("v", "30")]]
      "id" "id" (fun _ => 1) 10 (by decide) (by decide) (by decide)).1,
    by decide, by decide⟩

end HashJoin

